import Mathlib

/-!
Verification development for the tcproxy event-driven TCP forwarding proxy
(`tcproxy.cpp`, `tcproxy.h`, `config.cpp`).

The C++ program is shallowly embedded: the per-descriptor callback table,
the routing list, the select-driven reactor and the handler functions
(`OnConnect`, `OnRead`, `OnWrite`, `OnCommand`, `CloseSock`, `AddRoute`,
`ProcessCmd`, `TrimString`) are translated to pure Lean functions over an
explicit proxy state.  Environment results (accept/read/write/connect
return values, DNS resolution, fresh descriptor numbers) are supplied by
oracle values carried in events; operating-system guarantees (freshness of
returned descriptors, bounds on read/write counts) are captured by a
decidable validity predicate on events.  The `assert` in `GetRoute(int)`
is tracked by an `assertFailed` flag.
-/

namespace TcpProxy

/-- Tags for the member-function pointers stored in a `Callback` slot. -/
inductive Handler : Type
  | hRead
  | hWrite
  | hConnect
  | hCommand
deriving DecidableEq, Repr

/-- Address family of a resolved or accepted address (`AF_INET`, `AF_INET6`,
or anything else, which the code rejects). -/
inductive Fam : Type
  | inet
  | inet6
  | other
deriving DecidableEq, Repr

/-- IP addresses and command text are byte strings. -/
abbrev IpStr := List Nat

/-- One slot of the `cb[FD_SETSIZE]` array: optional read/write handlers,
the paired peer descriptor (`-1` when none), the 512-byte staging buffer
and the count of valid bytes in it. -/
structure Callback where
  write_fn : Option Handler := none
  read_fn : Option Handler := none
  peer_fd : Int := -1
  buf : Nat → Nat := fun _ => 0
  len : Nat := 0

/-- A freshly `Reset` slot (all fields at their defaults). -/
def Callback.empty : Callback := {}

/-- One record of the routing list. `source_fd = -1` means the route is not
bound to an accepted descriptor. -/
structure Route where
  source_fd : Int := -1
  source_ip_family : Fam := .other
  source_ip : IpStr := []
  target_ip_family : Fam := .other
  target_ip : IpStr := []
  target_port : Nat := 0
deriving DecidableEq, Repr

/-- The proxy state.  `openFds` is the set of OS-level open descriptors and
`pairs` the set of currently established forwarding pairs (source, target);
both are bookkeeping of real-world facts the C++ heap does not store
explicitly.  `unknownCmd` counts the `Unknown command` reports of
`ProcessCmd`, and `assertFailed` records a violated `assert`. -/
structure St where
  cb : Nat → Callback
  rfds : List Nat
  wfds : List Nat
  routes : List Route
  openFds : List Nat
  pairs : List (Nat × Nat)
  keep_running : Bool
  unknownCmd : Nat
  assertFailed : Bool

/-- Model of `GetCallback(fd)` for a natural descriptor: null exactly when
`fd ≥ FD_SETSIZE`. -/
def getCallbackN (s : St) (fd : Nat) : Option Callback :=
  if fd < 1024 then some (s.cb fd) else none

/-- Model of `GetCallback(fd)` for a possibly negative descriptor: null exactly when
`fd < 0 ∨ fd ≥ FD_SETSIZE`. -/
def getCallbackI (s : St) (fd : Int) : Option Callback :=
  if 0 ≤ fd ∧ fd < 1024 then some (s.cb fd.toNat) else none

/-- Write one slot of the callback array. -/
def setCb (s : St) (fd : Nat) (c : Callback) : St :=
  { s with cb := fun n => if n = fd then c else s.cb n }

/-- An `FD_CLR`-style removal from a descriptor list. -/
def removeFd (l : List Nat) (f : Nat) : List Nat :=
  l.filter (fun n => decide (n ≠ f))

/-- Drop every established pair that has `f` as either end. -/
def removePairs (l : List (Nat × Nat)) (f : Nat) : List (Nat × Nat) :=
  l.filter (fun p => decide (p.1 ≠ f) && decide (p.2 ≠ f))

/-- An `FD_SET`-style insertion into a descriptor list. -/
def insertFd (l : List Nat) (f : Nat) : List Nat :=
  if f ∈ l then l else f :: l

/-- Model of `CallbackRemove(fd)`: clear both interest bits and `Reset` the slot. -/
def callbackRemove (s : St) (fd : Nat) : St :=
  { s with rfds := removeFd s.rfds fd,
           wfds := removeFd s.wfds fd,
           cb := fun n => if n = fd then Callback.empty else s.cb n }

/-- Model of `CallbackAdd(fd, peer_fd, read_fn, write_fn)`: `Reset` the slot, store
the handlers and the peer, and set the interest bits for the non-null
handlers. -/
def callbackAdd (s : St) (fd : Nat) (peer : Int) (rfn wfn : Option Handler) : St :=
  { s with cb := fun n => if n = fd then
                   { write_fn := wfn, read_fn := rfn, peer_fd := peer }
                 else s.cb n,
           rfds := if rfn.isSome then insertFd s.rfds fd else s.rfds,
           wfds := if wfn.isSome then insertFd s.wfds fd else s.wfds }

/-- Model of `GetRoute(const char* source_ip)`: linear walk, first match wins. -/
def getRouteIpR : List Route → IpStr → Option Route
  | [], _ => none
  | r :: rs, ip => if r.source_ip = ip then some r else getRouteIpR rs ip

/-- Clearing step of `CloseSock`: `GetRoute(fd)` finds the first route bound
to `fd` and its `source_fd` is set to `-1`. -/
def clearRouteFdN : List Route → Nat → List Route
  | [], _ => []
  | r :: rs, f => if r.source_fd = (f : Int) then { r with source_fd := -1 } :: rs
                  else r :: clearRouteFdN rs f

/-- The assignment `rt->source_fd = source_fd` at the end of `OnConnect`: the route was
found by `GetRoute(source_ip)`, so the first route with that source IP is
updated. -/
def setRouteFdByIp : List Route → IpStr → Nat → List Route
  | [], _, _ => []
  | r :: rs, ip, v => if r.source_ip = ip then { r with source_fd := (v : Int) } :: rs
                      else r :: setRouteFdByIp rs ip v

/-- The not-connected duplicate branch of `AddRoute`: overwrite target IP
and port of the first route with the given source IP. -/
def updateTarget : List Route → IpStr → IpStr → Nat → List Route
  | [], _, _, _ => []
  | r :: rs, ip, tip, tp =>
      if r.source_ip = ip then { r with target_ip := tip, target_port := tp } :: rs
      else r :: updateTarget rs ip tip tp

/-- The connected duplicate branch of `AddRoute` after `CloseSock`:
overwrite target IP/port and set `source_fd := -1` on the first route with
the given source IP. -/
def updateTargetClear : List Route → IpStr → IpStr → Nat → List Route
  | [], _, _, _ => []
  | r :: rs, ip, tip, tp =>
      if r.source_ip = ip then
        { r with target_ip := tip, target_port := tp, source_fd := -1 } :: rs
      else r :: updateTargetClear rs ip tip tp

/-- Record an OS-level `accept`/`socket`/`open` success: the descriptor is
now open. -/
def addOpen (s : St) (f : Nat) : St := { s with openFds := f :: s.openFds }

/-- The body of `CloseSock` for a single descriptor: if `fd ≥ 0`, `close`
it (it is no longer open and any pair it belonged to is gone), run
`CallbackRemove` when `fd < FD_SETSIZE`, and call `GetRoute(fd)` to clear
the bound route.  `GetRoute(int)` carries
`assert(source_fd >= 0 && source_fd < FD_SETSIZE)`, so reaching it with
`fd ≥ FD_SETSIZE` trips the assertion (recorded in `assertFailed`); its
guard then returns null and no route is cleared. -/
def closeOne (s : St) (fd : Int) : St :=
  if 0 ≤ fd then
    let f := fd.toNat
    let s1 := { s with openFds := removeFd s.openFds f, pairs := removePairs s.pairs f }
    if f < 1024 then
      let s2 := callbackRemove s1 f
      { s2 with routes := clearRouteFdN s2.routes f }
    else
      { s1 with assertFailed := true }
  else s

/-- Model of `CloseSock(fd1, fd2)`: iterates `closeOne` over the two descriptors in
order. -/
def closeSock (s : St) (fd1 fd2 : Int) : St := closeOne (closeOne s fd1) fd2

/-- Model of `isspace` on a byte, for the default C locale. -/
def isspaceB (c : Nat) : Bool := decide (c = 32) || (decide (9 ≤ c) && decide (c ≤ 13))

/-- Effect of `read(fd, buf, 512)` landing `bs` at the start of `buf`. -/
def writeBytes (buf : Nat → Nat) (bs : List Nat) : Nat → Nat :=
  fun i => if h : i < bs.length then bs.get ⟨i, h⟩ else buf i

/-- Effect of `read(fd, buf + off, 512 - off)` landing `bs` at offset
`off`. -/
def appendBytes (buf : Nat → Nat) (off : Nat) (bs : List Nat) : Nat → Nat :=
  fun i => if h : off ≤ i ∧ i - off < bs.length then bs.get ⟨i - off, h.2⟩ else buf i

/-- Effect of `memmove(buf, buf + n, len - n)`. -/
def shiftBuf (buf : Nat → Nat) (n len : Nat) : Nat → Nat :=
  fun i => if i < len - n then buf (n + i) else buf i

/-- Effect of `memset(buf, 0, 512)`. -/
def zeroBuf : Nat → Nat := fun _ => 0

/-- Read the C string stored at the start of a slot buffer: bytes up to the
first NUL, within the 512-byte array. -/
def cStringAux (buf : Nat → Nat) : Nat → Nat → List Nat
  | _, 0 => []
  | i, fuel + 1 => if buf i = 0 then [] else buf i :: cStringAux buf (i + 1) fuel

/-- The C string at the start of the 512-byte buffer. -/
def cString (buf : Nat → Nat) : List Nat := cStringAux buf 0 512

/-- Remove the maximal run of trailing whitespace (the `ptrLast`
truncation loop of `TrimString`). -/
def dropTrailingWs : List Nat → List Nat
  | [] => []
  | c :: rest =>
      let r := dropTrailingWs rest
      if isspaceB c ∧ r = [] then [] else c :: r

/-- Observable result of `TrimString` on a string: whitespace stripped on
both sides. -/
def trimBytes (l : List Nat) : List Nat := dropTrailingWs (l.dropWhile isspaceB)

/-- Model of `tolower` on a byte. -/
def lowerB (c : Nat) : Nat := if 65 ≤ c ∧ c ≤ 90 then c + 32 else c

/-- Case-insensitive byte-string equality (`strcasecmp == 0`). -/
def lowerEq (a b : List Nat) : Bool := decide (a.map lowerB = b.map lowerB)

/-- digits 0-9. -/
def isdigitB (c : Nat) : Bool := decide (48 ≤ c) && decide (c ≤ 57)

/-- Decimal accumulation for the `%hu` conversion. -/
def natOfDigits : List Nat → Nat → Nat
  | [], acc => acc
  | d :: ds, acc => natOfDigits ds (acc * 10 + (d - 48))

/-- The `sscanf(route_conf, "%64s %64[^:]:%hu", ...)` scan of
`AddRoute(const char*)`: a whitespace-delimited source token (at most 64
bytes), whitespace, a colon-free target token (at most 64 bytes), a
literal colon and an unsigned short.  Returns `none` when fewer than three
conversions succeed. -/
def parseRoute (l : List Nat) : Option (List Nat × List Nat × Nat) :=
  let l1 := l.dropWhile isspaceB
  let sh := (l1.takeWhile (fun c => !(isspaceB c))).take 64
  if sh = [] then none
  else
    let l2 := (l1.drop sh.length).dropWhile isspaceB
    let th := (l2.takeWhile (fun c => decide (c ≠ 58))).take 64
    if th = [] then none
    else
      match l2.drop th.length with
      | 58 :: l4 =>
          let l5 := l4.dropWhile isspaceB
          let ds := l5.takeWhile isdigitB
          if ds = [] then none else some (sh, th, natOfDigits ds 0 % 65536)
      | _ => none

/-- Result of the two `getaddrinfo` calls in `AddRoute`: the first
IPv4/IPv6 address of the target (none when resolution fails or yields no
such address), and every IPv4/IPv6 address of the source host (empty when
resolution fails). -/
structure DnsOut where
  target : Option (Fam × IpStr)
  sources : List (Fam × IpStr)
deriving DecidableEq

/-- Build the `new_route` record of the `AddRoute` loop body. -/
def mkRoute (sf : Fam) (sip : IpStr) (tf : Fam) (tip : IpStr) (tp : Nat) : Route :=
  { source_fd := -1, source_ip_family := sf, source_ip := sip,
    target_ip_family := tf, target_ip := tip, target_port := tp }

/-- The per-source-address insertion step of `AddRoute`: prepend when the
source IP is new, merge in place when it duplicates an unconnected route,
and tear the live pair down before merging when it duplicates a connected
route. -/
def insertRoute (s : St) (nr : Route) : St :=
  if s.routes = [] then { s with routes := [nr] }
  else
    match getRouteIpR s.routes nr.source_ip with
    | none => { s with routes := nr :: s.routes }
    | some rt =>
      if rt.source_fd < 0 then
        { s with routes := updateTarget s.routes nr.source_ip nr.target_ip nr.target_port }
      else
        match getCallbackI s rt.source_fd with
        | none => s
        | some c =>
          let s1 := closeSock s rt.source_fd c.peer_fd
          { s1 with routes := updateTargetClear s1.routes nr.source_ip nr.target_ip nr.target_port }

/-- Model of `AddRoute(source_host, target_host, target_port)` given the resolver
results: argument validation, target resolution, then one insertion per
source address. -/
def addRouteHosts (s : St) (source_host target_host : IpStr) (tp : Nat) (dns : DnsOut) : St :=
  if source_host = [] ∨ target_host = [] ∨ tp = 0 then s
  else
    match dns.target with
    | none => s
    | some (tf, tip) =>
        dns.sources.foldl (fun st p => insertRoute st (mkRoute p.1 p.2 tf tip tp)) s

/-- Model of `AddRoute(const char* route_conf)`: reject null/empty, scan, trim the
two host tokens, then add. -/
def addRouteConf (s : St) (conf : IpStr) (dns : DnsOut) : St :=
  if conf = [] then s
  else
    match parseRoute conf with
    | none => s
    | some (sh, th, tp) => addRouteHosts s (trimBytes sh) (trimBytes th) tp dns

/-- the bytes of "exit". -/
def exitBytes : IpStr := [101, 120, 105, 116]

/-- the bytes of "add " (`CMD_ADD`). -/
def addBytes : IpStr := [97, 100, 100, 32]

/-- Which branch of `ProcessCmd` a command text selects. -/
inductive CmdAction : Type
  | exitCmd
  | addCmd (conf : List Nat)
  | unknown
deriving DecidableEq

/-- The branch structure of `ProcessCmd`: `strcasecmp(cmd, "exit")`, then
`strncasecmp(cmd, "add ", 4)`, otherwise the unknown-command report. -/
def classifyCmd (cmd : List Nat) : CmdAction :=
  if lowerEq cmd exitBytes then .exitCmd
  else if lowerEq (cmd.take 4) addBytes then .addCmd (cmd.drop 4)
  else .unknown

/-- Model of `ProcessCmd(cmd)` given the resolver results for a possible `add`. -/
def processCmd (s : St) (cmd : List Nat) (dns : DnsOut) : St :=
  match classifyCmd cmd with
  | .exitCmd => { s with keep_running := false }
  | .addCmd conf => addRouteConf s conf dns
  | .unknown => { s with unknownCmd := s.unknownCmd + 1 }

/-- Outcome of `accept` on the listener. -/
inductive AcceptOut : Type
  | fail (transient : Bool)
  | ok (sfd : Nat) (fam : Fam) (ip : IpStr)
deriving DecidableEq

/-- Outcome of `socket` for the target side. -/
inductive SockOut : Type
  | fail
  | ok (tfd : Nat)
deriving DecidableEq

/-- Outcome of the non-blocking `connect`: immediate success,
`EINPROGRESS`, or a hard failure. -/
inductive ConnOut : Type
  | connOk
  | inProgress
  | connFail
deriving DecidableEq

/-- All environment results one `OnConnect` call can consume. -/
structure ConnectOracle where
  acc : AcceptOut
  srcAsync : Bool
  sock : SockOut
  tgtAsync : Bool
  conn : ConnOut
deriving DecidableEq

/-- Outcome of a `read` call. -/
inductive ReadOut : Type
  | eof
  | rerr (transient : Bool)
  | rok (bs : List Nat)
deriving DecidableEq

/-- Outcome of a `write` call. -/
inductive WriteOut : Type
  | wzero
  | werr (transient : Bool)
  | wok (n : Nat)
deriving DecidableEq

/-- Environment results one `OnCommand` call can consume: the `read`
outcome, resolver results for a possible `add`, and the descriptor the
FIFO reopen yields (`none` when `MakeFifo` fails). -/
structure CmdOracle where
  rd : ReadOut
  dns : DnsOut
  newFifo : Option Nat
deriving DecidableEq

/-- Model of `OnConnect(fd)`: translation of the accept/validate/route/connect
chain.  Note that the accept-failure branch runs `CloseSock(fd)` on the
listener itself for transient and non-transient errors alike. -/
def onConnect (s : St) (fd : Nat) (o : ConnectOracle) : St :=
  match o.acc with
  | .fail _ => closeSock s (fd : Int) (-1)
  | .ok sfd fam ip =>
    let s1 := addOpen s sfd
    if 1024 ≤ sfd then closeSock s1 (sfd : Int) (-1)
    else if o.srcAsync = false then closeSock s1 (sfd : Int) (-1)
    else if fam = .other then closeSock s1 (sfd : Int) (-1)
    else
      match getRouteIpR s1.routes ip with
      | none => closeSock s1 (sfd : Int) (-1)
      | some _ =>
        match o.sock with
        | .fail => closeSock s1 (sfd : Int) (-1)
        | .ok tfd =>
          let s2 := addOpen s1 tfd
          if 1024 ≤ tfd then closeSock s2 (sfd : Int) (tfd : Int)
          else if o.tgtAsync = false then closeSock s2 (sfd : Int) (tfd : Int)
          else
            match o.conn with
            | .connFail => closeSock s2 (sfd : Int) (tfd : Int)
            | _ =>
              let s3 := callbackAdd s2 sfd (tfd : Int) (some .hRead) (some .hWrite)
              let s4 := callbackAdd s3 tfd (sfd : Int) (some .hRead) (some .hWrite)
              let s5 := { s4 with pairs := (sfd, tfd) :: s4.pairs }
              { s5 with routes := setRouteFdByIp s5.routes ip sfd }

/-- Model of `OnRead(fd)`: backpressure check on the peer buffer, then one read of
up to 512 bytes into the peer's buffer. -/
def onRead (s : St) (fd : Nat) (o : ReadOut) : St :=
  match getCallbackN s fd with
  | none => s
  | some c =>
    match getCallbackI s c.peer_fd with
    | none => closeSock s (fd : Int) c.peer_fd
    | some pc =>
      if pc.len ≠ 0 then s
      else
        match o with
        | .eof => closeSock s (fd : Int) c.peer_fd
        | .rerr t => if t then s else closeSock s (fd : Int) c.peer_fd
        | .rok bs =>
            setCb s c.peer_fd.toNat { pc with buf := writeBytes pc.buf bs, len := bs.length }

/-- Model of `OnWrite(fd)`: flush up to `len` bytes of the own buffer, shifting an
unsent suffix to the front. -/
def onWrite (s : St) (fd : Nat) (o : WriteOut) : St :=
  match getCallbackN s fd with
  | none => s
  | some c =>
    if c.len = 0 then s
    else
      match o with
      | .wzero => closeSock s (fd : Int) c.peer_fd
      | .werr t => if t then s else closeSock s (fd : Int) c.peer_fd
      | .wok n =>
        if n < c.len then setCb s fd { c with buf := shiftBuf c.buf n c.len, len := c.len - n }
        else setCb s fd { c with len := 0 }

/-- Model of `MakeFifo` as seen from `OnCommand`'s reopen: on success the fresh
FIFO descriptor is open and registered with `OnCommand` as read handler. -/
def makeFifo (s : St) : Option Nat → St
  | none => s
  | some f => callbackAdd (addOpen s f) f (-1) (some .hCommand) none

/-- Model of `OnCommand(fd)`: append on a successful read; on EOF trim and execute
the accumulated command, close the FIFO, reopen it and clear the command
buffer; on a hard read error clear the buffer. -/
def onCommand (s : St) (fd : Nat) (o : CmdOracle) : St :=
  match getCallbackN s fd with
  | none => s
  | some c =>
    match o.rd with
    | .rok bs => setCb s fd { c with buf := appendBytes c.buf c.len bs, len := c.len + bs.length }
    | .rerr t => if t then s else setCb s fd { c with buf := zeroBuf, len := 0 }
    | .eof =>
      let cmd := trimBytes (cString c.buf)
      let s1 := processCmd s cmd o.dns
      let s2 := closeSock s1 (fd : Int) (-1)
      let s3 := makeFifo s2 o.newFifo
      setCb s3 fd { s3.cb fd with buf := zeroBuf, len := 0 }

/-- One reactor dispatch: which handler runs is decided by the installed
read/write handler of the signalled descriptor, and the oracle carries the
environment results it consumes. -/
inductive Ev : Type
  | evConnect (fd : Nat) (o : ConnectOracle)
  | evRead (fd : Nat) (o : ReadOut)
  | evWrite (fd : Nat) (o : WriteOut)
  | evCmd (fd : Nat) (o : CmdOracle)
deriving DecidableEq

/-- Dispatch one event to its handler. -/
def step (s : St) : Ev → St
  | .evConnect fd o => onConnect s fd o
  | .evRead fd o => onRead s fd o
  | .evWrite fd o => onWrite s fd o
  | .evCmd fd o => onCommand s fd o

/-- OS guarantees for `OnConnect`: `accept` and `socket` return
descriptors that are not currently open (and distinct from each other). -/
def accValid (s : St) (o : ConnectOracle) : Bool :=
  match o.acc with
  | .fail _ => true
  | .ok sfd _ _ =>
    decide (sfd ∉ s.openFds) &&
    (match o.sock with
     | .fail => true
     | .ok tfd => decide (tfd ∉ s.openFds) && decide (tfd ≠ sfd))

/-- OS guarantees for a forwarding read: a positive return is between 1
and the requested 512 bytes. -/
def readValid (o : ReadOut) : Bool :=
  match o with
  | .rok bs => decide (bs ≠ []) && decide (bs.length ≤ 512)
  | _ => true

/-- OS guarantees for a write: a positive return is between 1 and the
requested count. -/
def writeValid (s : St) (fd : Nat) (o : WriteOut) : Bool :=
  match o with
  | .wok n => decide (1 ≤ n) && decide (n ≤ (s.cb fd).len)
  | _ => true

/-- OS guarantees for `OnCommand`: a positive read fits the remaining
buffer space, and the reopened FIFO descriptor is fresh (possibly reusing
the number just closed). -/
def cmdValid (s : St) (fd : Nat) (o : CmdOracle) : Bool :=
  (match o.rd with
   | .rok bs => decide (bs ≠ []) && decide ((s.cb fd).len + bs.length ≤ 512)
   | _ => true) &&
  (match o.newFifo with
   | none => true
   | some nf => decide (nf = fd) || decide (nf ∉ s.openFds))

/-- An event is dispatchable when the signalled descriptor has the
corresponding handler installed and is in the matching interest set, and
its oracle obeys the OS guarantees. -/
def validEv (s : St) : Ev → Bool
  | .evConnect fd o =>
      decide ((s.cb fd).read_fn = some .hConnect) && decide (fd ∈ s.rfds) && accValid s o
  | .evRead fd o =>
      decide ((s.cb fd).read_fn = some .hRead) && decide (fd ∈ s.rfds) && readValid o
  | .evWrite fd o =>
      decide ((s.cb fd).write_fn = some .hWrite) && decide (fd ∈ s.wfds) && writeValid s fd o
  | .evCmd fd o =>
      decide ((s.cb fd).read_fn = some .hCommand) && decide (fd ∈ s.rfds) && cmdValid s fd o

/-- Run a sequence of dispatches. -/
def run (s : St) (evs : List Ev) : St := evs.foldl step s

/-- Every event of the trace is dispatchable in the state it fires in. -/
def validTrace : St → List Ev → Bool
  | _, [] => true
  | s, e :: es => validEv s e && validTrace (step s e) es

/-- The slot `MakeFifo` installs at startup. -/
def fifoSlot : Callback := { read_fn := some .hCommand }

/-- The slot `Listen` installs for the listening socket. -/
def listenSlot : Callback := { read_fn := some .hConnect }

/-- State right after startup: FIFO descriptor `F` and listener `L`
registered for read, configuration routes loaded, stdio descriptors
open. -/
def initSt (r0 : List Route) (F L : Nat) : St :=
  { cb := fun n => if n = F then fifoSlot else if n = L then listenSlot else Callback.empty,
    rfds := [F, L], wfds := [], routes := r0,
    openFds := [0, 1, 2, F, L], pairs := [],
    keep_running := true, unknownCmd := 0, assertFailed := false }

/-- Startup sanity: distinct in-range descriptors, and configuration
routes are not yet bound to any accepted descriptor. -/
def initOk (r0 : List Route) (F L : Nat) : Bool :=
  decide (F ≠ L) && decide (F < 1024) && decide (L < 1024) &&
  r0.all (fun r => decide (r.source_fd = -1))

/-- A state the proxy can reach: some startup configuration followed by a
valid dispatch trace. -/
def Reachable (s : St) : Prop :=
  ∃ r0 F L evs, initOk r0 F L = true ∧ validTrace (initSt r0 F L) evs = true ∧
    s = run (initSt r0 F L) evs

/-! ## Basic lemmas about the list operations -/

theorem mem_removeFd {l : List Nat} {f a : Nat} : a ∈ removeFd l f ↔ a ∈ l ∧ a ≠ f := by
  simp [removeFd, List.mem_filter]

theorem mem_removePairs {l : List (Nat × Nat)} {f : Nat} {p : Nat × Nat} :
    p ∈ removePairs l f ↔ p ∈ l ∧ p.1 ≠ f ∧ p.2 ≠ f := by
  simp [removePairs, List.mem_filter]

theorem mem_insertFd {l : List Nat} {f a : Nat} : a ∈ insertFd l f ↔ a ∈ l ∨ a = f := by
  unfold insertFd
  by_cases h : f ∈ l
  · simp only [if_pos h]
    constructor
    · exact fun ha => Or.inl ha
    · rintro (ha | rfl)
      · exact ha
      · exact h
  · simp only [if_neg h, List.mem_cons]
    tauto

theorem clearRouteFdN_of_not_bound {l : List Route} {f : Nat}
    (h : ∀ r ∈ l, r.source_fd ≠ (f : Int)) : clearRouteFdN l f = l := by
  induction l with
  | nil => rfl
  | cons r rs ih =>
      have hr := h r (List.mem_cons_self r rs)
      simp only [clearRouteFdN, if_neg hr]
      rw [ih (fun x hx => h x (List.mem_cons_of_mem r hx))]

theorem removePairs_of_not_mem {l : List (Nat × Nat)} {f : Nat}
    (h : ∀ p ∈ l, p.1 ≠ f ∧ p.2 ≠ f) : removePairs l f = l := by
  unfold removePairs
  apply List.filter_eq_self.mpr
  intro p hp
  have := h p hp
  simp [this.1, this.2]

/-- The side of the state that the forwarding handlers leave alone when
they merely move bytes. -/
def sideEq (a b : St) : Prop :=
  a.routes = b.routes ∧ a.rfds = b.rfds ∧ a.wfds = b.wfds ∧
  a.openFds = b.openFds ∧ a.pairs = b.pairs ∧
  a.keep_running = b.keep_running ∧ a.unknownCmd = b.unknownCmd ∧
  a.assertFailed = b.assertFailed

theorem sideEq_setCb (s : St) (fd : Nat) (c : Callback) : sideEq (setCb s fd c) s := by
  exact ⟨rfl, rfl, rfl, rfl, rfl, rfl, rfl, rfl⟩

/-! ## C3: the case analysis of OnRead -/

/-- C3: For every call `OnRead(fd)` on an existing slot: a missing peer
slot tears the pair down; a nonzero peer `len` returns with no state
change; otherwise one read of up to 512 bytes into the peer's buffer is
attempted, where 0 tears the pair down, a transient error leaves the state
unchanged, any other error tears the pair down, and a positive result `n`
stores the bytes in the peer's buffer and sets the peer's `len` to `n`,
changing nothing else. -/
theorem c3_onRead_cases (s : St) (fd : Nat) (o : ReadOut) (c : Callback)
    (hc : getCallbackN s fd = some c) :
    (getCallbackI s c.peer_fd = none → onRead s fd o = closeSock s fd c.peer_fd) ∧
    (∀ pc, getCallbackI s c.peer_fd = some pc →
      (pc.len ≠ 0 → onRead s fd o = s) ∧
      (pc.len = 0 →
        (o = .eof → onRead s fd o = closeSock s fd c.peer_fd) ∧
        (o = .rerr true → onRead s fd o = s) ∧
        (o = .rerr false → onRead s fd o = closeSock s fd c.peer_fd) ∧
        (∀ bs, o = .rok bs → 1 ≤ bs.length → bs.length ≤ 512 →
          ((onRead s fd o).cb c.peer_fd.toNat).len = bs.length ∧
          (∀ i, (h : i < bs.length) → ((onRead s fd o).cb c.peer_fd.toNat).buf i = bs.get ⟨i, h⟩) ∧
          ((onRead s fd o).cb c.peer_fd.toNat).read_fn = pc.read_fn ∧
          ((onRead s fd o).cb c.peer_fd.toNat).write_fn = pc.write_fn ∧
          ((onRead s fd o).cb c.peer_fd.toNat).peer_fd = pc.peer_fd ∧
          (∀ m, m ≠ c.peer_fd.toNat → (onRead s fd o).cb m = s.cb m) ∧
          sideEq (onRead s fd o) s))) := by
  constructor
  · intro hnone
    simp [onRead, hc, hnone]
  · intro pc hpc
    constructor
    · intro hlen
      cases o <;> simp [onRead, hc, hpc, hlen]
    · intro hlen0
      refine ⟨?_, ?_, ?_, ?_⟩
      · rintro rfl
        simp [onRead, hc, hpc, hlen0]
      · rintro rfl
        simp [onRead, hc, hpc, hlen0]
      · rintro rfl
        simp [onRead, hc, hpc, hlen0]
      · rintro bs rfl _hpos _hle
        have hstep : onRead s fd (.rok bs)
            = setCb s c.peer_fd.toNat { pc with buf := writeBytes pc.buf bs, len := bs.length } := by
          simp [onRead, hc, hpc, hlen0]
        rw [hstep]
        refine ⟨by simp [setCb], ?_, by simp [setCb], by simp [setCb], by simp [setCb],
                ?_, sideEq_setCb ..⟩
        · intro i h
          simp [setCb, writeBytes, h]
        · intro m hm
          simp [setCb, hm]

/-- Concrete run used by the witnesses: one route for source IP `[49]`,
then a successful `OnConnect` establishing the pair `(5, 6)`. -/
def pairSt : St :=
  run (initSt [{ source_ip := [49] }] 3 4)
    [.evConnect 4 ⟨.ok 5 .inet [49], true, .ok 6, true, .inProgress⟩]

theorem c3_onRead_cases_witness :
    getCallbackN pairSt 5 = some (pairSt.cb 5) ∧
    getCallbackI pairSt (pairSt.cb 5).peer_fd = some (pairSt.cb 6) ∧
    (pairSt.cb 6).len = 0 ∧
    ((onRead pairSt 5 (.rok [7, 8])).cb 6).len = 2 := by
  have h := c3_onRead_cases pairSt 5 (.rok [7, 8]) (pairSt.cb 5) rfl
  have h2 := (h.2 (pairSt.cb 6) rfl).2 rfl
  have h3 := h2.2.2.2 [7, 8] rfl (by decide) (by decide)
  exact ⟨rfl, rfl, rfl, h3.1⟩

/-! ## C4: the case analysis of OnWrite -/

/-- C4: For every call `OnWrite(fd)`: when `len = 0` it returns with no
state change; otherwise it writes up to `len` bytes, and on a partial
write of `n < len` bytes the unsent suffix moves to the front of the
buffer and `len` becomes `len - n`, on a full write `len` becomes 0, on a
zero or non-transient negative result the pair is torn down, and on a
transient negative result the state is unchanged. -/
theorem c4_onWrite_cases (s : St) (fd : Nat) (o : WriteOut) (c : Callback)
    (hc : getCallbackN s fd = some c) :
    (c.len = 0 → onWrite s fd o = s) ∧
    (c.len ≠ 0 →
      (o = .wzero → onWrite s fd o = closeSock s fd c.peer_fd) ∧
      (o = .werr true → onWrite s fd o = s) ∧
      (o = .werr false → onWrite s fd o = closeSock s fd c.peer_fd) ∧
      (∀ n, o = .wok n →
        (n < c.len →
          ((onWrite s fd o).cb fd).len = c.len - n ∧
          (∀ i, i < c.len - n → ((onWrite s fd o).cb fd).buf i = c.buf (n + i)) ∧
          ((onWrite s fd o).cb fd).read_fn = c.read_fn ∧
          ((onWrite s fd o).cb fd).write_fn = c.write_fn ∧
          ((onWrite s fd o).cb fd).peer_fd = c.peer_fd ∧
          (∀ m, m ≠ fd → (onWrite s fd o).cb m = s.cb m) ∧
          sideEq (onWrite s fd o) s) ∧
        (¬ n < c.len →
          ((onWrite s fd o).cb fd).len = 0 ∧
          ((onWrite s fd o).cb fd).buf = c.buf ∧
          ((onWrite s fd o).cb fd).read_fn = c.read_fn ∧
          ((onWrite s fd o).cb fd).write_fn = c.write_fn ∧
          ((onWrite s fd o).cb fd).peer_fd = c.peer_fd ∧
          (∀ m, m ≠ fd → (onWrite s fd o).cb m = s.cb m) ∧
          sideEq (onWrite s fd o) s))) := by
  constructor
  · intro hz
    cases o <;> simp [onWrite, hc, hz]
  · intro hnz
    refine ⟨?_, ?_, ?_, ?_⟩
    · rintro rfl
      simp [onWrite, hc, hnz]
    · rintro rfl
      simp [onWrite, hc, hnz]
    · rintro rfl
      simp [onWrite, hc, hnz]
    · rintro n rfl
      constructor
      · intro hlt
        have hstep : onWrite s fd (.wok n)
            = setCb s fd { c with buf := shiftBuf c.buf n c.len, len := c.len - n } := by
          simp [onWrite, hc, hnz, hlt]
        rw [hstep]
        refine ⟨by simp [setCb], ?_, by simp [setCb], by simp [setCb], by simp [setCb],
                ?_, sideEq_setCb ..⟩
        · intro i hi
          simp [setCb, shiftBuf, hi]
        · intro m hm
          simp [setCb, hm]
      · intro hge
        have hstep : onWrite s fd (.wok n) = setCb s fd { c with len := 0 } := by
          simp [onWrite, hc, hnz, hge]
        rw [hstep]
        refine ⟨by simp [setCb], by simp [setCb], by simp [setCb], by simp [setCb],
                by simp [setCb], ?_, sideEq_setCb ..⟩
        intro m hm
        simp [setCb, hm]

theorem c4_onWrite_cases_witness :
    getCallbackN pairSt 5 = some (pairSt.cb 5) ∧ (pairSt.cb 5).len = 0 ∧
    onWrite pairSt 5 (.wok 1) = pairSt := by
  have h := c4_onWrite_cases pairSt 5 (.wok 1) (pairSt.cb 5) rfl
  exact ⟨rfl, rfl, h.1 rfl⟩

/-! ## C1: accept failure handling in OnConnect -/

/-- C1 (evidence for the divergence): when `accept` fails with a transient
error (`EAGAIN`/`EINTR`), `OnConnect` still runs `CloseSock` on the
listening descriptor itself: the listener's slot is reset, it leaves both
interest sets and it is closed, so it does not stay registered as the
specification requires. -/
theorem c1_transient_accept_closes_listener (s : St) (fd : Nat) (o : ConnectOracle)
    (ht : o.acc = .fail true) (hfd : fd < 1024) :
    (onConnect s fd o).cb fd = Callback.empty ∧
    fd ∉ (onConnect s fd o).rfds ∧
    fd ∉ (onConnect s fd o).wfds ∧
    fd ∉ (onConnect s fd o).openFds := by
  have hstep : onConnect s fd o = closeSock s fd (-1) := by
    simp [onConnect, ht]
  rw [hstep]
  have h1 : closeSock s (fd : Int) (-1) = closeOne s fd := by
    unfold closeSock closeOne
    norm_num
  rw [h1]
  unfold closeOne
  have h0 : (0 : Int) ≤ (fd : Int) := Int.ofNat_nonneg fd
  rw [if_pos h0]
  simp only [Int.toNat_ofNat, Int.toNat_natCast, if_pos hfd]
  refine ⟨by simp [callbackRemove], ?_, ?_, ?_⟩
  · intro hmem
    simp only [callbackRemove] at hmem
    exact (mem_removeFd.mp hmem).2 rfl
  · intro hmem
    simp only [callbackRemove] at hmem
    exact (mem_removeFd.mp hmem).2 rfl
  · intro hmem
    simp only [callbackRemove] at hmem
    exact (mem_removeFd.mp hmem).2 rfl

theorem c1_transient_accept_closes_listener_witness :
    (onConnect (initSt [] 3 4) 4 ⟨.fail true, true, .fail, true, .connOk⟩).cb 4
      = Callback.empty ∧
    4 ∉ (onConnect (initSt [] 3 4) 4 ⟨.fail true, true, .fail, true, .connOk⟩).rfds := by
  have h := c1_transient_accept_closes_listener (initSt [] 3 4) 4
    ⟨.fail true, true, .fail, true, .connOk⟩ rfl (by decide)
  exact ⟨h.1, h.2.1⟩

/-! ## C6: over-ceiling accepted descriptor -/

/-- C6 (evidence for the divergence): when `accept` returns a descriptor
`sfd ≥ FD_SETSIZE`, `OnConnect` closes it without registering anything
(the callback table and both interest sets are untouched and `sfd` is not
open afterwards), but the close path reaches `GetRoute(sfd)` inside
`CloseSock`, whose `assert(source_fd >= 0 && source_fd < FD_SETSIZE)` is
violated. -/
theorem c6_ceiling_close_trips_assert (s : St) (fd : Nat) (o : ConnectOracle)
    (sfd : Nat) (fam : Fam) (ip : IpStr)
    (hacc : o.acc = .ok sfd fam ip) (hbig : 1024 ≤ sfd) :
    (onConnect s fd o).assertFailed = true ∧
    (onConnect s fd o).cb = s.cb ∧
    (onConnect s fd o).rfds = s.rfds ∧
    (onConnect s fd o).wfds = s.wfds ∧
    (onConnect s fd o).routes = s.routes ∧
    sfd ∉ (onConnect s fd o).openFds := by
  have hstep : onConnect s fd o = closeSock (addOpen s sfd) sfd (-1) := by
    simp [onConnect, hacc, hbig]
  rw [hstep]
  have h1 : closeSock (addOpen s sfd) (sfd : Int) (-1) = closeOne (addOpen s sfd) sfd := by
    unfold closeSock closeOne
    norm_num
  rw [h1]
  unfold closeOne
  have h0 : (0 : Int) ≤ (sfd : Int) := Int.ofNat_nonneg sfd
  rw [if_pos h0]
  have hnot : ¬ ((sfd : Int).toNat < 1024) := by
    simp only [Int.toNat_natCast]
    omega
  rw [if_neg hnot]
  refine ⟨rfl, rfl, rfl, rfl, rfl, ?_⟩
  intro hmem
  simp only [Int.toNat_natCast, addOpen] at hmem
  exact (mem_removeFd.mp hmem).2 rfl

theorem c6_ceiling_close_trips_assert_witness :
    (onConnect (initSt [] 3 4) 4 ⟨.ok 1024 .inet [49], true, .fail, true, .connOk⟩).assertFailed
      = true ∧
    1024 ∉ (onConnect (initSt [] 3 4) 4 ⟨.ok 1024 .inet [49], true, .fail, true, .connOk⟩).openFds := by
  have h := c6_ceiling_close_trips_assert (initSt [] 3 4) 4
    ⟨.ok 1024 .inet [49], true, .fail, true, .connOk⟩ 1024 .inet [49] rfl (by decide)
  exact ⟨h.1, h.2.2.2.2.2⟩

/-! ## C9: OnCommand accumulates until EOF -/

/-- C9: `OnCommand` appends the bytes of every successful read at offset
`len` and executes nothing (routes, the running flag, the unknown-command
report count and the pairs are untouched); a read error also executes
nothing; only when the read returns 0 (writer closed the FIFO) is the
accumulated, trimmed command handed to `ProcessCmd`, whose effect on the
running flag, the report count and the routing table is what the state
then shows (the FIFO descriptor is closed and reopened around it). -/
theorem c9_onCommand_accumulates (s : St) (fd : Nat) (o : CmdOracle) (c : Callback)
    (hc : getCallbackN s fd = some c) :
    (∀ bs, o.rd = .rok bs →
      ((onCommand s fd o).cb fd).len = c.len + bs.length ∧
      (∀ i, i < c.len → ((onCommand s fd o).cb fd).buf i = c.buf i) ∧
      (∀ j, (h : j < bs.length) → ((onCommand s fd o).cb fd).buf (c.len + j) = bs.get ⟨j, h⟩) ∧
      sideEq (onCommand s fd o) s) ∧
    (∀ t, o.rd = .rerr t →
      sideEq (onCommand s fd o) s) ∧
    (o.rd = .eof →
      (onCommand s fd o).keep_running
        = (processCmd s (trimBytes (cString c.buf)) o.dns).keep_running ∧
      (onCommand s fd o).unknownCmd
        = (processCmd s (trimBytes (cString c.buf)) o.dns).unknownCmd ∧
      (onCommand s fd o).routes
        = clearRouteFdN (processCmd s (trimBytes (cString c.buf)) o.dns).routes fd) := by
  have hfd : fd < 1024 := by
    by_contra hge
    simp [getCallbackN, hge] at hc
  refine ⟨?_, ?_, ?_⟩
  · intro bs hrd
    have hstep : onCommand s fd o
        = setCb s fd { c with buf := appendBytes c.buf c.len bs, len := c.len + bs.length } := by
      simp [onCommand, hc, hrd]
    rw [hstep]
    refine ⟨by simp [setCb], ?_, ?_, sideEq_setCb ..⟩
    · intro i hi
      have hno : ¬ (c.len ≤ i ∧ i - c.len < bs.length) := by
        intro hcon
        omega
      simp [setCb, appendBytes, hno]
    · intro j hj
      have hgoal : ((setCb s fd
            { c with buf := appendBytes c.buf c.len bs, len := c.len + bs.length }).cb fd).buf
            (c.len + j) = appendBytes c.buf c.len bs (c.len + j) := by
        simp [setCb]
      rw [hgoal]
      unfold appendBytes
      simp only [Nat.add_sub_cancel_left]
      rw [dif_pos ⟨Nat.le_add_right c.len j, hj⟩]
  · intro t hrd
    cases t with
    | true =>
        have hstep : onCommand s fd o = s := by
          simp [onCommand, hc, hrd]
        rw [hstep]
        exact ⟨rfl, rfl, rfl, rfl, rfl, rfl, rfl, rfl⟩
    | false =>
        have hstep : onCommand s fd o = setCb s fd { c with buf := zeroBuf, len := 0 } := by
          simp [onCommand, hc, hrd]
        rw [hstep]
        exact sideEq_setCb ..
  · intro hrd
    have hstep : onCommand s fd o
        = setCb (makeFifo (closeSock (processCmd s (trimBytes (cString c.buf)) o.dns) fd (-1))
                  o.newFifo) fd
            { (makeFifo (closeSock (processCmd s (trimBytes (cString c.buf)) o.dns) fd (-1))
                o.newFifo).cb fd with buf := zeroBuf, len := 0 } := by
      simp [onCommand, hc, hrd]
    rw [hstep]
    have hclose : ∀ s2 : St,
        (closeSock s2 (fd : Int) (-1)).keep_running = s2.keep_running ∧
        (closeSock s2 (fd : Int) (-1)).unknownCmd = s2.unknownCmd ∧
        (closeSock s2 (fd : Int) (-1)).routes = clearRouteFdN s2.routes fd := by
      intro s2
      have h1 : closeSock s2 (fd : Int) (-1) = closeOne s2 fd := by
        unfold closeSock closeOne
        norm_num
      rw [h1]
      unfold closeOne
      have h0 : (0 : Int) ≤ (fd : Int) := Int.ofNat_nonneg fd
      rw [if_pos h0]
      simp only [Int.toNat_natCast, if_pos hfd]
      exact ⟨rfl, rfl, rfl⟩
    have hfifo : ∀ (s3 : St) (nf : Option Nat),
        (makeFifo s3 nf).keep_running = s3.keep_running ∧
        (makeFifo s3 nf).unknownCmd = s3.unknownCmd ∧
        (makeFifo s3 nf).routes = s3.routes := by
      intro s3 nf
      cases nf with
      | none => exact ⟨rfl, rfl, rfl⟩
      | some f => exact ⟨rfl, rfl, rfl⟩
    set sp := processCmd s (trimBytes (cString c.buf)) o.dns
    have hm := hfifo (closeSock sp fd (-1)) o.newFifo
    have hcl := hclose sp
    refine ⟨?_, ?_, ?_⟩
    · show (makeFifo (closeSock sp fd (-1)) o.newFifo).keep_running = sp.keep_running
      rw [hm.1, hcl.1]
    · show (makeFifo (closeSock sp fd (-1)) o.newFifo).unknownCmd = sp.unknownCmd
      rw [hm.2.1, hcl.2.1]
    · show (makeFifo (closeSock sp fd (-1)) o.newFifo).routes = clearRouteFdN sp.routes fd
      rw [hm.2.2, hcl.2.2]

theorem c9_onCommand_accumulates_witness :
    getCallbackN (initSt [] 3 4) 3 = some ((initSt [] 3 4).cb 3) ∧
    ((onCommand (initSt [] 3 4) 3 ⟨.rok [104, 105], ⟨none, []⟩, none⟩).cb 3).len = 2 ∧
    (onCommand (initSt [] 3 4) 3 ⟨.rok [104, 105], ⟨none, []⟩, none⟩).keep_running
      = (initSt [] 3 4).keep_running := by
  have h := c9_onCommand_accumulates (initSt [] 3 4) 3
    ⟨.rok [104, 105], ⟨none, []⟩, none⟩ ((initSt [] 3 4).cb 3) rfl
  have h1 := h.1 [104, 105] rfl
  exact ⟨rfl, h1.1, h1.2.2.2.2.2.2.2.2.1⟩

/-! ## Normal forms for closeOne -/

theorem closeOne_neg (s : St) : closeOne s (-1) = s := by
  unfold closeOne
  norm_num

theorem closeOne_lt (s : St) (f : Nat) (hf : f < 1024) :
    closeOne s (f : Int)
      = { s with openFds := removeFd s.openFds f,
                 pairs := removePairs s.pairs f,
                 rfds := removeFd s.rfds f,
                 wfds := removeFd s.wfds f,
                 cb := fun n => if n = f then Callback.empty else s.cb n,
                 routes := clearRouteFdN s.routes f } := by
  unfold closeOne callbackRemove
  rw [if_pos (Int.ofNat_nonneg f)]
  simp only [Int.toNat_natCast, if_pos hf]

theorem closeOne_ge (s : St) (f : Nat) (hf : 1024 ≤ f) :
    closeOne s (f : Int)
      = { s with openFds := removeFd s.openFds f,
                 pairs := removePairs s.pairs f,
                 assertFailed := true } := by
  unfold closeOne
  rw [if_pos (Int.ofNat_nonneg f)]
  simp only [Int.toNat_natCast, if_neg (by omega : ¬ f < 1024)]

theorem closeSock_single (s : St) (f : Nat) (hf : f < 1024) :
    closeSock s (f : Int) (-1)
      = { s with openFds := removeFd s.openFds f,
                 pairs := removePairs s.pairs f,
                 rfds := removeFd s.rfds f,
                 wfds := removeFd s.wfds f,
                 cb := fun n => if n = f then Callback.empty else s.cb n,
                 routes := clearRouteFdN s.routes f } := by
  unfold closeSock
  rw [closeOne_neg, closeOne_lt s f hf]

/-! ## C7: the empty command -/

/-- C7 (amended): when the FIFO writer closes after writing only
whitespace or nothing, the trimmed command is empty and no command action
is taken — the routing table, the pairs and the running flag are unchanged
(the FIFO descriptor itself is cycled) — but, contrary to the claim, the
empty command IS reported as an unknown command by `ProcessCmd`'s final
else branch. -/
theorem c7_empty_command_reported_unknown (s : St) (fd : Nat) (o : CmdOracle) (c : Callback)
    (hc : getCallbackN s fd = some c) (heof : o.rd = .eof)
    (hempty : trimBytes (cString c.buf) = [])
    (hroutes : ∀ r ∈ s.routes, r.source_fd ≠ (fd : Int))
    (hpairs : ∀ p ∈ s.pairs, p.1 ≠ fd ∧ p.2 ≠ fd) :
    (onCommand s fd o).keep_running = s.keep_running ∧
    (onCommand s fd o).routes = s.routes ∧
    (onCommand s fd o).pairs = s.pairs ∧
    (onCommand s fd o).unknownCmd = s.unknownCmd + 1 := by
  have hfd : fd < 1024 := by
    by_contra hge
    simp [getCallbackN, hge] at hc
  have hstep : onCommand s fd o
      = setCb (makeFifo (closeSock (processCmd s (trimBytes (cString c.buf)) o.dns) fd (-1))
                o.newFifo) fd
          { (makeFifo (closeSock (processCmd s (trimBytes (cString c.buf)) o.dns) fd (-1))
              o.newFifo).cb fd with buf := zeroBuf, len := 0 } := by
    simp [onCommand, hc, heof]
  have hcl : classifyCmd ([] : List Nat) = .unknown := by decide
  have hpc : processCmd s ([] : List Nat) o.dns = { s with unknownCmd := s.unknownCmd + 1 } := by
    simp [processCmd, hcl]
  rw [hstep, hempty, hpc]
  rw [closeSock_single _ fd hfd]
  have hroutes2 : clearRouteFdN s.routes fd = s.routes := clearRouteFdN_of_not_bound hroutes
  have hpairs2 : removePairs s.pairs fd = s.pairs := removePairs_of_not_mem hpairs
  cases hnf : o.newFifo with
  | none => exact ⟨rfl, hroutes2, hpairs2, rfl⟩
  | some nf => exact ⟨rfl, hroutes2, hpairs2, rfl⟩

theorem c7_empty_command_reported_unknown_witness :
    (onCommand (initSt [] 3 4) 3 ⟨.eof, ⟨none, []⟩, some 3⟩).keep_running
      = (initSt [] 3 4).keep_running ∧
    (onCommand (initSt [] 3 4) 3 ⟨.eof, ⟨none, []⟩, some 3⟩).unknownCmd
      = (initSt [] 3 4).unknownCmd + 1 := by
  have h := c7_empty_command_reported_unknown (initSt [] 3 4) 3 ⟨.eof, ⟨none, []⟩, some 3⟩
    ((initSt [] 3 4).cb 3) rfl rfl (by decide)
    (by intro r hr; simp [initSt] at hr) (by intro p hp; simp [initSt] at hp)
  exact ⟨h.1, h.2.2.2⟩

/-- C7 (counterexample to the claim as stated): with an empty accumulated
command, the `OnCommand` EOF path does report the command as unknown —
`ProcessCmd("")` falls through `exit` and `add ` into the
unknown-command report, incrementing the report count from 0 to 1. -/
theorem c7_counterexample :
    (onCommand (initSt [] 3 4) 3 ⟨.eof, ⟨none, []⟩, some 3⟩).unknownCmd = 1 ∧
    (initSt [] 3 4).unknownCmd = 0 := by
  constructor
  · rfl
  · rfl

/-! ## C5: the re-add merge of AddRoute -/

theorem getRouteIpR_split {l : List Route} {ip : IpStr} {rt : Route}
    (h : getRouteIpR l ip = some rt) :
    rt.source_ip = ip ∧
    ∃ pre post, l = pre ++ rt :: post ∧ ∀ r ∈ pre, r.source_ip ≠ ip := by
  induction l with
  | nil => simp [getRouteIpR] at h
  | cons r rs ih =>
      by_cases hr : r.source_ip = ip
      · rw [getRouteIpR, if_pos hr] at h
        obtain rfl : r = rt := by injection h
        refine ⟨hr, [], rs, rfl, ?_⟩
        intro x hx
        simp at hx
      · rw [getRouteIpR, if_neg hr] at h
        obtain ⟨hip, pre, post, heq, hpre⟩ := ih h
        refine ⟨hip, r :: pre, post, by rw [heq]; rfl, ?_⟩
        intro x hx
        rcases List.mem_cons.mp hx with rfl | hx2
        · exact hr
        · exact hpre x hx2

theorem updateTarget_split (pre post : List Route) (rt : Route) (ip tip : IpStr) (tp : Nat)
    (hpre : ∀ r ∈ pre, r.source_ip ≠ ip) (hrt : rt.source_ip = ip) :
    updateTarget (pre ++ rt :: post) ip tip tp
      = pre ++ { rt with target_ip := tip, target_port := tp } :: post := by
  induction pre with
  | nil => simp [updateTarget, hrt]
  | cons r rs ih =>
      have hr : r.source_ip ≠ ip := hpre r (List.mem_cons_self r rs)
      have hrest : ∀ x ∈ rs, x.source_ip ≠ ip :=
        fun x hx => hpre x (List.mem_cons_of_mem r hx)
      simp only [List.cons_append, updateTarget, if_neg hr]
      exact congrArg (r :: ·) (ih hrest)

/-- C5: adding a route whose source IP is already present while the
existing route's `source_fd` is unbound leaves the table size unchanged
and merges in place: the existing route gets the new `target_ip` and
`target_port` and keeps every other field (including, in this code, its
old `target_ip_family`), no other route is touched, the new record is
discarded, and nothing outside the routing table changes. -/
theorem c5_readd_merge (s : St) (nr : Route) (rt : Route)
    (hfind : getRouteIpR s.routes nr.source_ip = some rt)
    (hnofd : rt.source_fd < 0) :
    (insertRoute s nr).routes.length = s.routes.length ∧
    (insertRoute s nr).cb = s.cb ∧
    (insertRoute s nr).rfds = s.rfds ∧
    (insertRoute s nr).wfds = s.wfds ∧
    (insertRoute s nr).openFds = s.openFds ∧
    (insertRoute s nr).pairs = s.pairs ∧
    (insertRoute s nr).keep_running = s.keep_running ∧
    (∃ pre post,
      s.routes = pre ++ rt :: post ∧
      (∀ r ∈ pre, r.source_ip ≠ nr.source_ip) ∧
      (insertRoute s nr).routes
        = pre ++ { rt with target_ip := nr.target_ip, target_port := nr.target_port } :: post) := by
  obtain ⟨hip, pre, post, heq, hpre⟩ := getRouteIpR_split hfind
  have hne : s.routes ≠ [] := by
    rw [heq]
    simp
  have hstep : insertRoute s nr
      = { s with routes := updateTarget s.routes nr.source_ip nr.target_ip nr.target_port } := by
    unfold insertRoute
    rw [if_neg hne, hfind]
    simp only [if_pos hnofd]
  have hupd : updateTarget s.routes nr.source_ip nr.target_ip nr.target_port
      = pre ++ { rt with target_ip := nr.target_ip, target_port := nr.target_port } :: post := by
    rw [heq]
    exact updateTarget_split pre post rt nr.source_ip nr.target_ip nr.target_port hpre hip
  rw [hstep]
  refine ⟨?_, rfl, rfl, rfl, rfl, rfl, rfl, pre, post, heq, hpre, hupd⟩
  rw [hupd, heq]
  simp

/-- Two-route table used by the C5 witness: the first route is for a
different source IP, the second is the unbound route being merged. -/
def c5St : St := initSt [{ source_ip := [50] }, { source_ip := [49], target_ip := [51] }] 3 4

theorem c5_readd_merge_witness :
    getRouteIpR c5St.routes [49] = some { source_ip := [49], target_ip := [51] } ∧
    ({ source_ip := [49], target_ip := [51] } : Route).source_fd < 0 ∧
    (insertRoute c5St { source_ip := [49], target_ip := [52], target_port := 80 }).routes.length
      = c5St.routes.length ∧
    (insertRoute c5St { source_ip := [49], target_ip := [52], target_port := 80 }).pairs
      = c5St.pairs := by
  have h := c5_readd_merge c5St { source_ip := [49], target_ip := [52], target_port := 80 }
    { source_ip := [49], target_ip := [51] } (by decide) (by decide)
  exact ⟨by decide, by decide, h.1, h.2.2.2.2.2.1⟩

/-! ## C10: bounds-checked embedding of TrimString / Config::TrimLine -/

/-- Bounds-checked character lookup into a C string buffer: the bytes of
the string sit at indices `0 .. length - 1`, the NUL terminator at index
`length`; any other index is outside the buffer. -/
def lookupC (s : List Nat) (i : Int) : Option Nat :=
  if i < 0 then none
  else if h : i.toNat < s.length then some (s.get ⟨i.toNat, h⟩)
  else if i.toNat = s.length then some 0
  else none

/-- The left-trim loop of `TrimString` (`while (isspace(*ptr)) ptr++;`),
every dereference checked. -/
def scanWhileSpace (s : List Nat) : Int → Nat → Option Int
  | _, 0 => none
  | i, fuel + 1 =>
      match lookupC s i with
      | none => none
      | some c => if isspaceB c then scanWhileSpace s (i + 1) fuel else some i

/-- The right-trim loop of `TrimString` (`while (*ptr != 0)` tracking
`ptrLast`), every dereference checked; yields the final `ptr` (at the NUL)
together with `ptrLast`. -/
def scanToNul (s : List Nat) : Int → Option Int → Nat → Option (Int × Option Int)
  | _, _, 0 => none
  | i, pl, fuel + 1 =>
      match lookupC s i with
      | none => none
      | some c =>
          if c = 0 then some (i, pl)
          else if isspaceB c then
            scanToNul s (i + 1) (match pl with | none => some i | some p => some p) fuel
          else scanToNul s (i + 1) none fuel

/-- Model of `CTcpProxy::TrimString` with every character read checked: left-trim
loop, right-trim loop, then the final newline test `*(ptr - 1) == '\n'`.
The result is `none` exactly when one of those reads lands outside the
string buffer. -/
def trimStringChecked (s : List Nat) : Option Unit :=
  match scanWhileSpace s 0 (s.length + 2) with
  | none => none
  | some start =>
      match scanToNul s start none (s.length + 2) with
      | none => none
      | some (ptr, _) =>
          match lookupC s (ptr - 1) with
          | none => none
          | some _ => some ()

/-- Note that `Config::TrimLine` is textually identical to `CTcpProxy::TrimString`
(same left trim, right trim with `ptrLast`, and final `*(ptr - 1)` newline
test), so its checked embedding coincides. -/
def trimLineChecked (s : List Nat) : Option Unit := trimStringChecked s

theorem isspaceB_ne_zero {c : Nat} (h : isspaceB c = true) : c ≠ 0 := by
  intro hc
  subst hc
  exact absurd h (by decide)

theorem lookupC_inbounds {s : List Nat} {i : Int} (h0 : 0 ≤ i) (hle : i ≤ (s.length : Int)) :
    ∃ c, lookupC s i = some c ∧ (i = (s.length : Int) → c = 0) := by
  unfold lookupC
  rw [if_neg (by omega)]
  by_cases h : i.toNat < s.length
  · rw [dif_pos h]
    exact ⟨_, rfl, fun hi => absurd hi (by omega)⟩
  · have hi : i.toNat = s.length := by omega
    rw [dif_neg h, if_pos hi]
    exact ⟨0, rfl, fun _ => rfl⟩

theorem scanWhileSpace_inbounds (s : List Nat) :
    ∀ fuel : Nat, ∀ i : Int, 0 ≤ i → i ≤ (s.length : Int) →
    s.length + 1 - i.toNat ≤ fuel →
    ∃ j, scanWhileSpace s i fuel = some j ∧ i ≤ j ∧ j ≤ (s.length : Int) := by
  intro fuel
  induction fuel with
  | zero =>
      intro i h0 hle hf
      exact absurd hf (by omega)
  | succ fuel ih =>
      intro i h0 hle hf
      obtain ⟨c, hc, hnul⟩ := lookupC_inbounds h0 hle
      cases hsp : isspaceB c with
      | false =>
          refine ⟨i, ?_, le_refl i, hle⟩
          rw [scanWhileSpace, hc]
          simp [hsp]
      | true =>
          have hlt : i < (s.length : Int) := by
            rcases lt_or_eq_of_le hle with h | h
            · exact h
            · exact absurd (hnul h) (isspaceB_ne_zero hsp)
          obtain ⟨j, hj, hij, hjle⟩ := ih (i + 1) (by omega) (by omega) (by omega)
          refine ⟨j, ?_, by omega, hjle⟩
          rw [scanWhileSpace, hc]
          simp [hsp, hj]

theorem scanToNul_succ (s : List Nat) (i : Int) (pl : Option Int) (fuel : Nat) :
    scanToNul s i pl (fuel + 1)
      = match lookupC s i with
        | none => none
        | some c =>
            if c = 0 then some (i, pl)
            else if isspaceB c then
              scanToNul s (i + 1) (match pl with | none => some i | some p => some p) fuel
            else scanToNul s (i + 1) none fuel := rfl

theorem scanToNul_inbounds (s : List Nat) :
    ∀ fuel : Nat, ∀ i : Int, ∀ pl : Option Int, 0 ≤ i → i ≤ (s.length : Int) →
    s.length + 1 - i.toNat ≤ fuel →
    ∃ ptr pl2, scanToNul s i pl fuel = some (ptr, pl2) ∧ i ≤ ptr ∧ ptr ≤ (s.length : Int) ∧
      (∀ c, lookupC s i = some c → c ≠ 0 → i + 1 ≤ ptr) := by
  intro fuel
  induction fuel with
  | zero =>
      intro i pl h0 hle hf
      exact absurd hf (by omega)
  | succ fuel ih =>
      intro i pl h0 hle hf
      obtain ⟨c, hc, hnul⟩ := lookupC_inbounds h0 hle
      by_cases hz : c = 0
      · refine ⟨i, pl, ?_, le_refl i, hle, ?_⟩
        · rw [scanToNul_succ, hc]
          simp [hz]
        · intro c2 hc2 hne
          rw [hc] at hc2
          injection hc2 with hcc
          exact absurd (hcc.symm.trans hz) hne
      · have hlt : i < (s.length : Int) := by
          rcases lt_or_eq_of_le hle with h | h
          · exact h
          · exact absurd (hnul h) hz
        cases hsp : isspaceB c with
        | true =>
            obtain ⟨ptr, pl2, hrun, hip, hple, _⟩ :=
              ih (i + 1) (match pl with | none => some i | some p => some p)
                (by omega) (by omega) (by omega)
            refine ⟨ptr, pl2, ?_, by omega, hple, fun _ _ _ => by omega⟩
            rw [scanToNul_succ, hc]
            simp [hz, hsp, hrun]
        | false =>
            obtain ⟨ptr, pl2, hrun, hip, hple, _⟩ := ih (i + 1) none (by omega) (by omega) (by omega)
            refine ⟨ptr, pl2, ?_, by omega, hple, fun _ _ _ => by omega⟩
            rw [scanToNul_succ, hc]
            simp [hz, hsp, hrun]

/-- C10: the trimming functions are NOT read-safe on every input: on the
empty string both `TrimString` and `TrimLine` dereference `*(ptr - 1)`
one position before the buffer (the checked embedding yields `none`),
while on any string whose first character is not NUL every read stays
inside the buffer. -/
theorem c10_trim_read_bounds :
    trimStringChecked [] = none ∧ trimLineChecked [] = none ∧
    ∀ c cs, c ≠ 0 → trimStringChecked (c :: cs) ≠ none := by
  refine ⟨by decide, by decide, ?_⟩
  intro c cs hc
  have hlen : (0 : Int) ≤ ((c :: cs).length : Int) := by positivity
  obtain ⟨start, hstart, h0s, hsle⟩ :=
    scanWhileSpace_inbounds (c :: cs) ((c :: cs).length + 2) 0 (le_refl 0) hlen (by omega)
  obtain ⟨ptr, pl2, hrun, hsp, hple, hstep⟩ :=
    scanToNul_inbounds (c :: cs) ((c :: cs).length + 2) start none (by omega) hsle (by omega)
  have hl0 : lookupC (c :: cs) 0 = some c := by
    unfold lookupC
    norm_num
  have hptr1 : 1 ≤ ptr := by
    rcases lt_or_eq_of_le h0s with h | h
    · omega
    · have := hstep c (by rw [← h]; exact hl0) hc
      omega
  unfold trimStringChecked
  simp only [hstart, hrun]
  obtain ⟨cl, hcl, _⟩ := lookupC_inbounds (s := c :: cs) (i := ptr - 1) (by omega) (by omega)
  rw [hcl]
  simp

theorem c10_trim_read_bounds_witness : trimStringChecked [97] ≠ none :=
  c10_trim_read_bounds.2.2 97 [] (by decide)

/-! ## C8: the CallbackSelect dispatch loop -/

/-- One direction of the loop body of `CallbackSelect`: when descriptor
`i` is in the snapshot set AND (re-checked) still in the live interest set
`g`, the installed handler `h` runs and the invocation `(s, i, isRead)` is
recorded; otherwise nothing happens. -/
def stepDir {σ : Type} (g : σ → Nat → Bool) (h : σ → Nat → σ) (snap : List Nat)
    (i : Nat) (s : σ) (isRead : Bool) : σ × List (σ × Nat × Bool) :=
  if decide (i ∈ snap) && g s i then (h s i, [(s, i, isRead)]) else (s, [])

/-- The dispatch loop of `CallbackSelect`
(`for (int i = 3; n && i < FD_SETSIZE; i++)`), generic in the live
interest sets `getR`/`getW` and the handler semantics `hr`/`hw`.
`trfds`/`twfds` are the select snapshot and `n` the ready count select
returned; `n` is decremented per snapshot hit and the loop stops early
when it reaches zero.  For each descriptor the read direction is processed
before the write direction.  Returns the end state and the invocation
trace (invocation-time state, descriptor, read?). -/
def selectGo {σ : Type} (getR getW : σ → Nat → Bool) (hr hw : σ → Nat → σ)
    (trfds twfds : List Nat) : Nat → Nat → Nat → σ → σ × List (σ × Nat × Bool)
  | 0, _, _, s => (s, [])
  | fuel + 1, n, i, s =>
      if n = 0 then (s, [])
      else
        let pr := stepDir getR hr trfds i s true
        let n1 := if i ∈ trfds then n - 1 else n
        let pw := stepDir getW hw twfds i pr.1 false
        let n2 := if i ∈ twfds then n1 - 1 else n1
        let rest := selectGo getR getW hr hw trfds twfds fuel n2 (i + 1) pw.1
        (rest.1, pr.2 ++ pw.2 ++ rest.2)

/-- Model of `CallbackSelect` after the `select` call: dispatch descriptors 3
through `FD_SETSIZE - 1` (1021 loop iterations). -/
def callbackSelect {σ : Type} (getR getW : σ → Nat → Bool) (hr hw : σ → Nat → σ)
    (trfds twfds : List Nat) (n : Nat) (s : σ) : σ × List (σ × Nat × Bool) :=
  selectGo getR getW hr hw trfds twfds 1021 n 3 s

/-- Service order on invocations: strictly ascending descriptor, and on
the same descriptor the read direction strictly before the write
direction. -/
def dispatchLt (a b : Nat × Bool) : Prop :=
  a.1 < b.1 ∨ (a.1 = b.1 ∧ a.2 = true ∧ b.2 = false)

/-- The recorded invocation-time states are exactly the fold of the
handlers over the trace: each invocation sees the state produced by all
earlier handlers of the batch. -/
def chainFrom {σ : Type} (hr hw : σ → Nat → σ) : σ → List (σ × Nat × Bool) → Prop
  | _, [] => True
  | s, (s0, i, d) :: rest =>
      s0 = s ∧ chainFrom hr hw (if d then hr s i else hw s i) rest

theorem stepDir_cases {σ : Type} (g : σ → Nat → Bool) (h : σ → Nat → σ) (snap : List Nat)
    (i : Nat) (s : σ) (d : Bool) :
    stepDir g h snap i s d = (s, []) ∨
    (g s i = true ∧ i ∈ snap ∧ stepDir g h snap i s d = (h s i, [(s, i, d)])) := by
  unfold stepDir
  by_cases hc : (decide (i ∈ snap) && g s i) = true
  · right
    have := hc
    rw [Bool.and_eq_true, decide_eq_true_eq] at this
    exact ⟨this.2, this.1, by rw [if_pos hc]⟩
  · left
    rw [if_neg hc]

theorem selectGo_succ {σ : Type} (getR getW : σ → Nat → Bool) (hr hw : σ → Nat → σ)
    (trfds twfds : List Nat) (fuel n i : Nat) (s : σ) :
    selectGo getR getW hr hw trfds twfds (fuel + 1) n i s
      = if n = 0 then (s, [])
        else
          ((selectGo getR getW hr hw trfds twfds fuel
              (if i ∈ twfds then (if i ∈ trfds then n - 1 else n) - 1
               else (if i ∈ trfds then n - 1 else n))
              (i + 1)
              (stepDir getW hw twfds i (stepDir getR hr trfds i s true).1 false).1).1,
           (stepDir getR hr trfds i s true).2 ++
             (stepDir getW hw twfds i (stepDir getR hr trfds i s true).1 false).2 ++
             (selectGo getR getW hr hw trfds twfds fuel
               (if i ∈ twfds then (if i ∈ trfds then n - 1 else n) - 1
                else (if i ∈ trfds then n - 1 else n))
               (i + 1)
               (stepDir getW hw twfds i (stepDir getR hr trfds i s true).1 false).1).2) := rfl

theorem pairwise_dispatch_cons {σ : Type} {l : List (σ × Nat × Bool)} {i : Nat} {d : Bool}
    (hge : ∀ e ∈ l, i + 1 ≤ e.2.1)
    (hl : List.Pairwise dispatchLt (l.map Prod.snd)) (s0 : σ) :
    List.Pairwise dispatchLt (((s0, i, d) :: l).map Prod.snd) := by
  simp only [List.map_cons]
  rw [List.pairwise_cons]
  refine ⟨?_, hl⟩
  intro y hy
  obtain ⟨e, he, rfl⟩ := List.mem_map.mp hy
  exact Or.inl (by have := hge e he; omega)

theorem selectGo_props {σ : Type} (getR getW : σ → Nat → Bool) (hr hw : σ → Nat → σ)
    (trfds twfds : List Nat) :
    ∀ fuel n i : Nat, ∀ s : σ,
      (∀ e ∈ (selectGo getR getW hr hw trfds twfds fuel n i s).2, i ≤ e.2.1) ∧
      List.Pairwise dispatchLt
        ((selectGo getR getW hr hw trfds twfds fuel n i s).2.map Prod.snd) ∧
      chainFrom hr hw s (selectGo getR getW hr hw trfds twfds fuel n i s).2 ∧
      (∀ e ∈ (selectGo getR getW hr hw trfds twfds fuel n i s).2,
        e.2.2 = true → getR e.1 e.2.1 = true ∧ e.2.1 ∈ trfds) ∧
      (∀ e ∈ (selectGo getR getW hr hw trfds twfds fuel n i s).2,
        e.2.2 = false → getW e.1 e.2.1 = true ∧ e.2.1 ∈ twfds) := by
  intro fuel
  induction fuel with
  | zero =>
      intro n i s
      refine ⟨?_, ?_, ?_, ?_, ?_⟩ <;> simp [selectGo, chainFrom]
  | succ fuel ih =>
      intro n i s
      rw [selectGo_succ]
      by_cases hn : n = 0
      · rw [if_pos hn]
        refine ⟨?_, ?_, ?_, ?_, ?_⟩ <;> simp [chainFrom]
      · rw [if_neg hn]
        rcases stepDir_cases getR hr trfds i s true with h1 | ⟨hg1, hm1, h1⟩
        · rcases stepDir_cases getW hw twfds i (stepDir getR hr trfds i s true).1 false
              with h2 | ⟨hg2, hm2, h2⟩
          · -- neither direction fired
            simp only [h1] at h2
            obtain ⟨hge, hpw, hch, hgr, hgw⟩ := ih
              (if i ∈ twfds then (if i ∈ trfds then n - 1 else n) - 1
               else (if i ∈ trfds then n - 1 else n)) (i + 1) s
            simp only [h1, h2, List.nil_append]
            refine ⟨fun e he => by have := hge e he; omega, hpw, hch, hgr, hgw⟩
          · -- only the write direction fired
            simp only [h1] at h2 hg2
            obtain ⟨hge, hpw, hch, hgr, hgw⟩ := ih
              (if i ∈ twfds then (if i ∈ trfds then n - 1 else n) - 1
               else (if i ∈ trfds then n - 1 else n)) (i + 1) (hw s i)
            simp only [h1, h2, List.nil_append, List.singleton_append]
            refine ⟨?_, ?_, ?_, ?_, ?_⟩
            · intro e he
              rcases List.mem_cons.mp he with rfl | he2
              · exact le_refl i
              · have := hge e he2; omega
            · exact pairwise_dispatch_cons (fun e he => hge e he) hpw s
            · exact ⟨rfl, hch⟩
            · intro e he hd
              rcases List.mem_cons.mp he with rfl | he2
              · exact absurd hd (by simp)
              · exact hgr e he2 hd
            · intro e he hd
              rcases List.mem_cons.mp he with rfl | he2
              · exact ⟨hg2, hm2⟩
              · exact hgw e he2 hd
        · rcases stepDir_cases getW hw twfds i (stepDir getR hr trfds i s true).1 false
              with h2 | ⟨hg2, hm2, h2⟩
          · -- only the read direction fired
            simp only [h1] at h2
            obtain ⟨hge, hpw, hch, hgr, hgw⟩ := ih
              (if i ∈ twfds then (if i ∈ trfds then n - 1 else n) - 1
               else (if i ∈ trfds then n - 1 else n)) (i + 1) (hr s i)
            simp only [h1, h2, List.append_nil, List.singleton_append]
            refine ⟨?_, ?_, ?_, ?_, ?_⟩
            · intro e he
              rcases List.mem_cons.mp he with rfl | he2
              · exact le_refl i
              · have := hge e he2; omega
            · exact pairwise_dispatch_cons (fun e he => hge e he) hpw s
            · exact ⟨rfl, hch⟩
            · intro e he hd
              rcases List.mem_cons.mp he with rfl | he2
              · exact ⟨hg1, hm1⟩
              · exact hgr e he2 hd
            · intro e he hd
              rcases List.mem_cons.mp he with rfl | he2
              · exact absurd hd (by simp)
              · exact hgw e he2 hd
          · -- both directions fired
            simp only [h1] at h2 hg2
            obtain ⟨hge, hpw, hch, hgr, hgw⟩ := ih
              (if i ∈ twfds then (if i ∈ trfds then n - 1 else n) - 1
               else (if i ∈ trfds then n - 1 else n)) (i + 1) (hw (hr s i) i)
            simp only [h1, h2, List.singleton_append, List.cons_append, List.nil_append]
            refine ⟨?_, ?_, ?_, ?_, ?_⟩
            · intro e he
              rcases List.mem_cons.mp he with rfl | he2
              · exact le_refl i
              · rcases List.mem_cons.mp he2 with rfl | he3
                · exact le_refl i
                · have := hge e he3; omega
            · simp only [List.map_cons]
              rw [List.pairwise_cons]
              constructor
              · intro y hy
                rcases List.mem_cons.mp hy with rfl | hy2
                · exact Or.inr ⟨rfl, rfl, rfl⟩
                · obtain ⟨e, he, rfl⟩ := List.mem_map.mp hy2
                  exact Or.inl (by have := hge e he; omega)
              · have := pairwise_dispatch_cons (d := false)
                  (l := (selectGo getR getW hr hw trfds twfds fuel
                    (if i ∈ twfds then (if i ∈ trfds then n - 1 else n) - 1
                     else (if i ∈ trfds then n - 1 else n)) (i + 1) (hw (hr s i) i)).2)
                  (fun e he => hge e he) hpw (hr s i)
                simpa using this
            · exact ⟨rfl, rfl, hch⟩
            · intro e he hd
              rcases List.mem_cons.mp he with rfl | he2
              · exact ⟨hg1, hm1⟩
              · rcases List.mem_cons.mp he2 with rfl | he3
                · exact absurd hd (by simp)
                · exact hgr e he3 hd
            · intro e he hd
              rcases List.mem_cons.mp he with rfl | he2
              · exact absurd hd (by simp)
              · rcases List.mem_cons.mp he2 with rfl | he3
                · exact ⟨hg2, hm2⟩
                · exact hgw e he3 hd

/-- C8: within a single wakeup batch, `CallbackSelect` services
descriptors in strictly ascending order starting at 3, dispatching the
read direction before the write direction on the same descriptor, and
every invocation happens in the state produced by all earlier handlers of
the batch with the descriptor still present in the corresponding live
interest set at that moment — so a handler whose interest-set membership
was removed by an earlier handler of the same batch is never invoked. -/
theorem c8_select_order_and_recheck {σ : Type} (getR getW : σ → Nat → Bool)
    (hr hw : σ → Nat → σ) (trfds twfds : List Nat) (n : Nat) (s : σ) :
    (∀ e ∈ (callbackSelect getR getW hr hw trfds twfds n s).2, 3 ≤ e.2.1) ∧
    List.Pairwise dispatchLt
      ((callbackSelect getR getW hr hw trfds twfds n s).2.map Prod.snd) ∧
    chainFrom hr hw s (callbackSelect getR getW hr hw trfds twfds n s).2 ∧
    (∀ e ∈ (callbackSelect getR getW hr hw trfds twfds n s).2,
      e.2.2 = true → getR e.1 e.2.1 = true ∧ e.2.1 ∈ trfds) ∧
    (∀ e ∈ (callbackSelect getR getW hr hw trfds twfds n s).2,
      e.2.2 = false → getW e.1 e.2.1 = true ∧ e.2.1 ∈ twfds) :=
  selectGo_props getR getW hr hw trfds twfds 1021 n 3 s

/-! ## C2: the pairing invariant over reachable states -/

/-- Predicate: `a` is an end of some established pair. -/
def pairMem (s : St) (a : Nat) : Prop := ∃ p ∈ s.pairs, p.1 = a ∨ p.2 = a

/-- Every established pair has both ends open, in range, with `OnRead` and
`OnWrite` installed and mutual `peer_fd` references. -/
def pairsWF (s : St) : Prop :=
  ∀ p ∈ s.pairs,
    p.1 ≠ p.2 ∧ p.1 < 1024 ∧ p.2 < 1024 ∧ p.1 ∈ s.openFds ∧ p.2 ∈ s.openFds ∧
    (s.cb p.1).read_fn = some .hRead ∧ (s.cb p.1).write_fn = some .hWrite ∧
    (s.cb p.1).peer_fd = (p.2 : Int) ∧
    (s.cb p.2).read_fn = some .hRead ∧ (s.cb p.2).write_fn = some .hWrite ∧
    (s.cb p.2).peer_fd = (p.1 : Int)

/-- Every slot carrying a forwarding handler belongs to an established
pair. -/
def fwdInPairs (s : St) : Prop :=
  ∀ a : Nat, ((s.cb a).read_fn = some .hRead ∨ (s.cb a).write_fn = some .hWrite) →
    pairMem s a

/-- No descriptor is an end of two different established pairs. -/
def pairNoClash (p q : Nat × Nat) : Prop :=
  p.1 ≠ q.1 ∧ p.1 ≠ q.2 ∧ p.2 ≠ q.1 ∧ p.2 ≠ q.2

def pairsDisjoint (s : St) : Prop := s.pairs.Pairwise pairNoClash

/-- A bound route points at an open, in-range descriptor whose slot has
the `OnRead` handler. -/
def routesWF (s : St) : Prop :=
  ∀ r ∈ s.routes, 0 ≤ r.source_fd →
    r.source_fd < 1024 ∧ r.source_fd.toNat ∈ s.openFds ∧
    (s.cb r.source_fd.toNat).read_fn = some .hRead

/-- No two routes are bound to the same descriptor. -/
def routeNoFdClash (r1 r2 : Route) : Prop :=
  0 ≤ r1.source_fd → 0 ≤ r2.source_fd → r1.source_fd ≠ r2.source_fd

def routesFdDistinct (s : St) : Prop := s.routes.Pairwise routeNoFdClash

/-- The inductive invariant of the proxy state machine. -/
def Inv (s : St) : Prop :=
  pairsWF s ∧ fwdInPairs s ∧ pairsDisjoint s ∧ routesWF s ∧ routesFdDistinct s

theorem pairNoClash_symm : ∀ {p q : Nat × Nat}, pairNoClash p q → pairNoClash q p := by
  intro p q h
  exact ⟨h.1.symm, h.2.2.1.symm, h.2.1.symm, h.2.2.2.symm⟩

/-- With disjoint pairs, two pairs sharing an end are the same pair. -/
theorem pairs_unique {s : St} (hd : pairsDisjoint s) {p q : Nat × Nat}
    (hp : p ∈ s.pairs) (hq : q ∈ s.pairs) (x : Nat)
    (hxp : p.1 = x ∨ p.2 = x) (hxq : q.1 = x ∨ q.2 = x) : p = q := by
  by_contra hne
  have hcl : pairNoClash p q := by
    have := List.Pairwise.forall (fun a b h => pairNoClash_symm h) hd
    exact this hp hq hne
  rcases hxp with h1 | h1 <;> rcases hxq with h2 | h2
  · exact hcl.1 (h1.trans h2.symm)
  · exact hcl.2.1 (h1.trans h2.symm)
  · exact hcl.2.2.1 (h1.trans h2.symm)
  · exact hcl.2.2.2 (h1.trans h2.symm)

theorem pairMem_open {s : St} (hw : pairsWF s) {a : Nat} (h : pairMem s a) :
    a ∈ s.openFds ∧ a < 1024 := by
  obtain ⟨p, hp, hor⟩ := h
  have := hw p hp
  rcases hor with rfl | rfl
  · exact ⟨this.2.2.2.1, this.2.1⟩
  · exact ⟨this.2.2.2.2.1, this.2.2.1⟩

theorem not_pairMem_of_not_open {s : St} (hw : pairsWF s) {a : Nat}
    (h : a ∉ s.openFds) : ¬ pairMem s a :=
  fun hm => h (pairMem_open hw hm).1

/-! Route-list lemmas. -/

theorem clearRouteFdN_weak_mem {l : List Route} {f : Nat} :
    ∀ r ∈ clearRouteFdN l f, r ∈ l ∨ r.source_fd = -1 := by
  induction l with
  | nil => intro r hr; exact absurd hr (by simp [clearRouteFdN])
  | cons x xs ih =>
      intro r hr
      by_cases hx : x.source_fd = (f : Int)
      · rw [clearRouteFdN, if_pos hx] at hr
        rcases List.mem_cons.mp hr with rfl | h2
        · exact Or.inr rfl
        · exact Or.inl (List.mem_cons_of_mem x h2)
      · rw [clearRouteFdN, if_neg hx] at hr
        rcases List.mem_cons.mp hr with rfl | h2
        · exact Or.inl (List.mem_cons_self _ _)
        · rcases ih r h2 with h3 | h3
          · exact Or.inl (List.mem_cons_of_mem x h3)
          · exact Or.inr h3

theorem clearRouteFdN_mem {l : List Route} {f : Nat} (hd : l.Pairwise routeNoFdClash) :
    ∀ r ∈ clearRouteFdN l f, 0 ≤ r.source_fd → r ∈ l ∧ r.source_fd ≠ (f : Int) := by
  induction l with
  | nil => intro r hr; exact absurd hr (by simp [clearRouteFdN])
  | cons x xs ih =>
      intro r hr hpos
      rw [List.pairwise_cons] at hd
      by_cases hx : x.source_fd = (f : Int)
      · rw [clearRouteFdN, if_pos hx] at hr
        rcases List.mem_cons.mp hr with rfl | h2
        · exact absurd hpos (by norm_num)
        · refine ⟨List.mem_cons_of_mem x h2, ?_⟩
          intro hrf
          exact hd.1 r h2 (by rw [hx]; positivity) hpos (hx.trans hrf.symm)
      · rw [clearRouteFdN, if_neg hx] at hr
        rcases List.mem_cons.mp hr with rfl | h2
        · exact ⟨List.mem_cons_self _ _, hx⟩
        · obtain ⟨h3, h4⟩ := ih hd.2 r h2 hpos
          exact ⟨List.mem_cons_of_mem x h3, h4⟩

theorem clearRouteFdN_pairwise {l : List Route} {f : Nat} (hd : l.Pairwise routeNoFdClash) :
    (clearRouteFdN l f).Pairwise routeNoFdClash := by
  induction l with
  | nil => simpa [clearRouteFdN] using hd
  | cons x xs ih =>
      rw [List.pairwise_cons] at hd
      by_cases hx : x.source_fd = (f : Int)
      · rw [clearRouteFdN, if_pos hx]
        rw [List.pairwise_cons]
        refine ⟨?_, hd.2⟩
        intro r _ habs
        exact absurd habs (by norm_num)
      · rw [clearRouteFdN, if_neg hx]
        rw [List.pairwise_cons]
        refine ⟨?_, ih hd.2⟩
        intro r hr h1 h2
        rcases clearRouteFdN_weak_mem r hr with h3 | h3
        · exact hd.1 r h3 h1 h2
        · rw [h3] at h2
          exact absurd h2 (by norm_num)

theorem setRouteFdByIp_mem {l : List Route} {ip : IpStr} {v : Nat} :
    ∀ r ∈ setRouteFdByIp l ip v,
      r ∈ l ∨ ∃ r0 ∈ l, r = { r0 with source_fd := (v : Int) } := by
  induction l with
  | nil => intro r hr; exact absurd hr (by simp [setRouteFdByIp])
  | cons x xs ih =>
      intro r hr
      by_cases hx : x.source_ip = ip
      · rw [setRouteFdByIp, if_pos hx] at hr
        rcases List.mem_cons.mp hr with rfl | h2
        · exact Or.inr ⟨x, List.mem_cons_self x xs, rfl⟩
        · exact Or.inl (List.mem_cons_of_mem x h2)
      · rw [setRouteFdByIp, if_neg hx] at hr
        rcases List.mem_cons.mp hr with rfl | h2
        · exact Or.inl (List.mem_cons_self _ _)
        · rcases ih r h2 with h3 | ⟨r0, h4, h5⟩
          · exact Or.inl (List.mem_cons_of_mem x h3)
          · exact Or.inr ⟨r0, List.mem_cons_of_mem x h4, h5⟩

theorem setRouteFdByIp_pairwise {l : List Route} {ip : IpStr} {v : Nat}
    (hd : l.Pairwise routeNoFdClash) (hfresh : ∀ r ∈ l, r.source_fd ≠ (v : Int)) :
    (setRouteFdByIp l ip v).Pairwise routeNoFdClash := by
  induction l with
  | nil => simpa [setRouteFdByIp] using hd
  | cons x xs ih =>
      rw [List.pairwise_cons] at hd
      have hfx : x.source_fd ≠ (v : Int) := hfresh x (List.mem_cons_self x xs)
      have hfxs : ∀ r ∈ xs, r.source_fd ≠ (v : Int) :=
        fun r hr => hfresh r (List.mem_cons_of_mem x hr)
      by_cases hx : x.source_ip = ip
      · rw [setRouteFdByIp, if_pos hx]
        rw [List.pairwise_cons]
        refine ⟨?_, hd.2⟩
        intro r hr _ _
        exact fun he => hfxs r hr he.symm
      · rw [setRouteFdByIp, if_neg hx]
        rw [List.pairwise_cons]
        refine ⟨?_, ih hd.2 hfxs⟩
        intro r hr h1 h2
        rcases setRouteFdByIp_mem r hr with h3 | ⟨r0, h4, rfl⟩
        · exact hd.1 r h3 h1 h2
        · exact fun he => hfx he

theorem updateTarget_mem {l : List Route} {ip tip : IpStr} {tp : Nat} :
    ∀ r ∈ updateTarget l ip tip tp, ∃ r0 ∈ l, r.source_fd = r0.source_fd := by
  induction l with
  | nil => intro r hr; exact absurd hr (by simp [updateTarget])
  | cons x xs ih =>
      intro r hr
      by_cases hx : x.source_ip = ip
      · rw [updateTarget, if_pos hx] at hr
        rcases List.mem_cons.mp hr with rfl | h2
        · exact ⟨x, List.mem_cons_self x xs, rfl⟩
        · exact ⟨r, List.mem_cons_of_mem x (by exact h2), rfl⟩
      · rw [updateTarget, if_neg hx] at hr
        rcases List.mem_cons.mp hr with rfl | h2
        · exact ⟨r, List.mem_cons_self _ _, rfl⟩
        · obtain ⟨r0, h3, h4⟩ := ih r h2
          exact ⟨r0, List.mem_cons_of_mem x h3, h4⟩

theorem updateTarget_pairwise {l : List Route} {ip tip : IpStr} {tp : Nat}
    (hd : l.Pairwise routeNoFdClash) : (updateTarget l ip tip tp).Pairwise routeNoFdClash := by
  induction l with
  | nil => simpa [updateTarget] using hd
  | cons x xs ih =>
      rw [List.pairwise_cons] at hd
      by_cases hx : x.source_ip = ip
      · rw [updateTarget, if_pos hx]
        rw [List.pairwise_cons]
        exact ⟨fun r hr h1 h2 => hd.1 r hr h1 h2, hd.2⟩
      · rw [updateTarget, if_neg hx]
        rw [List.pairwise_cons]
        refine ⟨?_, ih hd.2⟩
        intro r hr h1 h2
        obtain ⟨r0, h3, h4⟩ := updateTarget_mem r hr
        rw [h4]
        exact hd.1 r0 h3 h1 (h4 ▸ h2)

theorem updateTargetClear_mem {l : List Route} {ip tip : IpStr} {tp : Nat} :
    ∀ r ∈ updateTargetClear l ip tip tp,
      (∃ r0 ∈ l, r.source_fd = r0.source_fd) ∨ r.source_fd = -1 := by
  induction l with
  | nil => intro r hr; exact absurd hr (by simp [updateTargetClear])
  | cons x xs ih =>
      intro r hr
      by_cases hx : x.source_ip = ip
      · rw [updateTargetClear, if_pos hx] at hr
        rcases List.mem_cons.mp hr with rfl | h2
        · exact Or.inr rfl
        · exact Or.inl ⟨r, List.mem_cons_of_mem x h2, rfl⟩
      · rw [updateTargetClear, if_neg hx] at hr
        rcases List.mem_cons.mp hr with rfl | h2
        · exact Or.inl ⟨r, List.mem_cons_self _ _, rfl⟩
        · rcases ih r h2 with ⟨r0, h3, h4⟩ | h3
          · exact Or.inl ⟨r0, List.mem_cons_of_mem x h3, h4⟩
          · exact Or.inr h3

theorem updateTargetClear_pairwise {l : List Route} {ip tip : IpStr} {tp : Nat}
    (hd : l.Pairwise routeNoFdClash) :
    (updateTargetClear l ip tip tp).Pairwise routeNoFdClash := by
  induction l with
  | nil => simpa [updateTargetClear] using hd
  | cons x xs ih =>
      rw [List.pairwise_cons] at hd
      by_cases hx : x.source_ip = ip
      · rw [updateTargetClear, if_pos hx]
        rw [List.pairwise_cons]
        refine ⟨?_, hd.2⟩
        intro r _ habs
        exact absurd habs (by norm_num)
      · rw [updateTargetClear, if_neg hx]
        rw [List.pairwise_cons]
        refine ⟨?_, ih hd.2⟩
        intro r hr h1 h2
        rcases updateTargetClear_mem r hr with ⟨r0, h3, h4⟩ | h3
        · rw [h4]
          exact hd.1 r0 h3 h1 (h4 ▸ h2)
        · rw [h3] at h2
          exact absurd h2 (by norm_num)

/-! Subset monotonicity of closing. -/

theorem closeOne_pairs_sub (s : St) (fd : Int) : (closeOne s fd).pairs ⊆ s.pairs := by
  unfold closeOne
  by_cases h0 : 0 ≤ fd
  · rw [if_pos h0]
    by_cases hf : fd.toNat < 1024
    · rw [if_pos hf]
      intro x hx
      have hx2 : x ∈ removePairs s.pairs fd.toNat := hx
      exact (mem_removePairs.mp hx2).1
    · rw [if_neg hf]
      intro x hx
      have hx2 : x ∈ removePairs s.pairs fd.toNat := hx
      exact (mem_removePairs.mp hx2).1
  · rw [if_neg h0]
    exact fun x hx => hx

theorem closeOne_open_sub (s : St) (fd : Int) : (closeOne s fd).openFds ⊆ s.openFds := by
  unfold closeOne
  by_cases h0 : 0 ≤ fd
  · rw [if_pos h0]
    by_cases hf : fd.toNat < 1024
    · rw [if_pos hf]
      intro x hx
      have hx2 : x ∈ removeFd s.openFds fd.toNat := hx
      exact (mem_removeFd.mp hx2).1
    · rw [if_neg hf]
      intro x hx
      have hx2 : x ∈ removeFd s.openFds fd.toNat := hx
      exact (mem_removeFd.mp hx2).1
  · rw [if_neg h0]
    exact fun x hx => hx

theorem pairMem_closeOne {s : St} {fd : Int} {a : Nat} (h : pairMem (closeOne s fd) a) :
    pairMem s a := by
  obtain ⟨p, hp, hor⟩ := h
  exact ⟨p, closeOne_pairs_sub s fd hp, hor⟩

/-! Closing a descriptor that is not part of any pair preserves the
invariant. -/

theorem inv_closeOne_nat (s : St) (f : Nat) (hInv : Inv s) (hnp : ¬ pairMem s f) :
    Inv (closeOne s (f : Int)) := by
  obtain ⟨hpw, hfp, hdj, hrw, hrd⟩ := hInv
  by_cases hf : f < 1024
  · rw [closeOne_lt s f hf]
    refine ⟨?_, ?_, ?_, ?_, ?_⟩
    · intro p hp
      obtain ⟨hpm, hne1, hne2⟩ := mem_removePairs.mp hp
      have hw := hpw p hpm
      simp only [if_neg hne1, if_neg hne2]
      exact ⟨hw.1, hw.2.1, hw.2.2.1,
        mem_removeFd.mpr ⟨hw.2.2.2.1, hne1⟩, mem_removeFd.mpr ⟨hw.2.2.2.2.1, hne2⟩,
        hw.2.2.2.2.2.1, hw.2.2.2.2.2.2.1, hw.2.2.2.2.2.2.2.1,
        hw.2.2.2.2.2.2.2.2.1, hw.2.2.2.2.2.2.2.2.2.1, hw.2.2.2.2.2.2.2.2.2.2⟩
    · intro a ha
      by_cases haf : a = f
      · subst haf
        simp only [if_pos rfl] at ha
        rcases ha with h | h <;> exact absurd h (by simp [Callback.empty])
      · simp only [if_neg haf] at ha
        obtain ⟨p, hp, hor⟩ := hfp a ha
        refine ⟨p, ?_, hor⟩
        refine mem_removePairs.mpr ⟨hp, ?_, ?_⟩
        · intro h1
          exact hnp ⟨p, hp, Or.inl h1⟩
        · intro h2
          exact hnp ⟨p, hp, Or.inr h2⟩
    · exact List.Pairwise.filter _ hdj
    · intro r hr hpos
      obtain ⟨hrl, hrne⟩ := clearRouteFdN_mem hrd r hr hpos
      have hw := hrw r hrl hpos
      have htne : r.source_fd.toNat ≠ f := by
        intro habs
        exact hrne (by omega)
      simp only [if_neg htne]
      exact ⟨hw.1, mem_removeFd.mpr ⟨hw.2.1, htne⟩, hw.2.2⟩
    · exact clearRouteFdN_pairwise hrd
  · rw [closeOne_ge s f (by omega)]
    have hpairs : removePairs s.pairs f = s.pairs := by
      apply removePairs_of_not_mem
      intro p hp
      have hw := hpw p hp
      constructor
      · omega
      · omega
    rw [hpairs]
    refine ⟨?_, ?_, hdj, ?_, hrd⟩
    · intro p hp
      have hw := hpw p hp
      refine ⟨hw.1, hw.2.1, hw.2.2.1,
        mem_removeFd.mpr ⟨hw.2.2.2.1, by omega⟩, mem_removeFd.mpr ⟨hw.2.2.2.2.1, by omega⟩,
        hw.2.2.2.2.2.1, hw.2.2.2.2.2.2.1, hw.2.2.2.2.2.2.2.1,
        hw.2.2.2.2.2.2.2.2.1, hw.2.2.2.2.2.2.2.2.2.1, hw.2.2.2.2.2.2.2.2.2.2⟩
    · exact hfp
    · intro r hr hpos
      have hw := hrw r hr hpos
      exact ⟨hw.1, mem_removeFd.mpr ⟨hw.2.1, by omega⟩, hw.2.2⟩

theorem inv_closeOne_int (s : St) (fd : Int) (hInv : Inv s)
    (hnp : 0 ≤ fd → ¬ pairMem s fd.toNat) : Inv (closeOne s fd) := by
  by_cases h0 : 0 ≤ fd
  · have heq : fd = ((fd.toNat : Nat) : Int) := (Int.toNat_of_nonneg h0).symm
    rw [heq]
    exact inv_closeOne_nat s fd.toNat hInv (hnp h0)
  · unfold closeOne
    rw [if_neg h0]
    exact hInv

theorem inv_closeSock_nonpair (s : St) (fd1 fd2 : Int) (hInv : Inv s)
    (h1 : 0 ≤ fd1 → ¬ pairMem s fd1.toNat) (h2 : 0 ≤ fd2 → ¬ pairMem s fd2.toNat) :
    Inv (closeSock s fd1 fd2) := by
  apply inv_closeOne_int _ _ (inv_closeOne_int s fd1 hInv h1)
  intro hf2 hm
  exact h2 hf2 (pairMem_closeOne hm)

/-! Closing both ends of an established pair preserves the invariant. -/

theorem closeSock_two (s : St) (a b : Nat) (ha : a < 1024) (hb : b < 1024) :
    closeSock s (a : Int) (b : Int)
      = { s with
          openFds := removeFd (removeFd s.openFds a) b,
          pairs := removePairs (removePairs s.pairs a) b,
          rfds := removeFd (removeFd s.rfds a) b,
          wfds := removeFd (removeFd s.wfds a) b,
          cb := fun n => if n = b then Callback.empty else
                           if n = a then Callback.empty else s.cb n,
          routes := clearRouteFdN (clearRouteFdN s.routes a) b } := by
  unfold closeSock
  rw [closeOne_lt s a ha, closeOne_lt _ b hb]

theorem inv_closeSock_pair (s : St) (a b : Nat) (hInv : Inv s)
    (hp : (a, b) ∈ s.pairs ∨ (b, a) ∈ s.pairs) :
    Inv (closeSock s (a : Int) (b : Int)) := by
  obtain ⟨hpw, hfp, hdj, hrw, hrd⟩ := hInv
  have hq : ∃ q ∈ s.pairs, (q.1 = a ∧ q.2 = b) ∨ (q.1 = b ∧ q.2 = a) := by
    rcases hp with h | h
    · exact ⟨(a, b), h, Or.inl ⟨rfl, rfl⟩⟩
    · exact ⟨(b, a), h, Or.inr ⟨rfl, rfl⟩⟩
  obtain ⟨q, hqm, hqe⟩ := hq
  have hqw := hpw q hqm
  have hab : a ≠ b := by
    rcases hqe with ⟨h1, h2⟩ | ⟨h1, h2⟩
    · rw [← h1, ← h2]; exact hqw.1
    · rw [← h1, ← h2]; exact fun h => hqw.1 h.symm
  have ha1024 : a < 1024 := by
    rcases hqe with ⟨h1, _⟩ | ⟨_, h2⟩
    · rw [← h1]; exact hqw.2.1
    · rw [← h2]; exact hqw.2.2.1
  have hb1024 : b < 1024 := by
    rcases hqe with ⟨_, h2⟩ | ⟨h1, _⟩
    · rw [← h2]; exact hqw.2.2.1
    · rw [← h1]; exact hqw.2.1
  have hqmem : q.1 = a ∨ q.2 = a := by
    rcases hqe with ⟨h1, _⟩ | ⟨_, h2⟩
    · exact Or.inl h1
    · exact Or.inr h2
  have hqmemb : q.1 = b ∨ q.2 = b := by
    rcases hqe with ⟨_, h2⟩ | ⟨h1, _⟩
    · exact Or.inr h2
    · exact Or.inl h1
  rw [closeSock_two s a b ha1024 hb1024]
  refine ⟨?_, ?_, ?_, ?_, ?_⟩
  · intro p hp2
    obtain ⟨hp3, hpb1, hpb2⟩ := mem_removePairs.mp hp2
    obtain ⟨hpm, hpa1, hpa2⟩ := mem_removePairs.mp hp3
    have hw := hpw p hpm
    simp only [if_neg hpb1, if_neg hpa1, if_neg hpb2, if_neg hpa2]
    exact ⟨hw.1, hw.2.1, hw.2.2.1,
      mem_removeFd.mpr ⟨mem_removeFd.mpr ⟨hw.2.2.2.1, hpa1⟩, hpb1⟩,
      mem_removeFd.mpr ⟨mem_removeFd.mpr ⟨hw.2.2.2.2.1, hpa2⟩, hpb2⟩,
      hw.2.2.2.2.2.1, hw.2.2.2.2.2.2.1, hw.2.2.2.2.2.2.2.1,
      hw.2.2.2.2.2.2.2.2.1, hw.2.2.2.2.2.2.2.2.2.1, hw.2.2.2.2.2.2.2.2.2.2⟩
  · intro x hx
    by_cases hxb : x = b
    · subst hxb
      simp only [if_pos rfl] at hx
      rcases hx with h | h <;> exact absurd h (by simp [Callback.empty])
    · by_cases hxa : x = a
      · subst hxa
        simp only [if_neg hxb, if_pos rfl] at hx
        rcases hx with h | h <;> exact absurd h (by simp [Callback.empty])
      · simp only [if_neg hxb, if_neg hxa] at hx
        obtain ⟨p, hpm, hor⟩ := hfp x hx
        refine ⟨p, ?_, hor⟩
        have hpq : p.1 = a ∨ p.2 = a → p = q := fun h => pairs_unique hdj hpm hqm a h hqmem
        have hpqb : p.1 = b ∨ p.2 = b → p = q := fun h => pairs_unique hdj hpm hqm b h hqmemb
        have hxq : p = q → False := by
          intro heq
          subst heq
          rcases hqe with ⟨h1, h2⟩ | ⟨h1, h2⟩ <;> rcases hor with h3 | h3
          · exact hxa (h3.symm.trans h1)
          · exact hxb (h3.symm.trans h2)
          · exact hxb (h3.symm.trans h1)
          · exact hxa (h3.symm.trans h2)
        refine mem_removePairs.mpr ⟨mem_removePairs.mpr ⟨hpm, ?_, ?_⟩, ?_, ?_⟩
        · exact fun h => hxq (hpq (Or.inl h))
        · exact fun h => hxq (hpq (Or.inr h))
        · exact fun h => hxq (hpqb (Or.inl h))
        · exact fun h => hxq (hpqb (Or.inr h))
  · exact List.Pairwise.filter _ (List.Pairwise.filter _ hdj)
  · intro r hr hpos
    have hrd1 := clearRouteFdN_pairwise (f := a) hrd
    obtain ⟨hr1, hrneb⟩ := clearRouteFdN_mem hrd1 r hr hpos
    obtain ⟨hr0, hrnea⟩ := clearRouteFdN_mem hrd r hr1 hpos
    have hw := hrw r hr0 hpos
    have htnea : r.source_fd.toNat ≠ a := fun habs => hrnea (by omega)
    have htneb : r.source_fd.toNat ≠ b := fun habs => hrneb (by omega)
    simp only [if_neg htnea, if_neg htneb]
    exact ⟨hw.1, mem_removeFd.mpr ⟨mem_removeFd.mpr ⟨hw.2.1, htnea⟩, htneb⟩, hw.2.2⟩
  · exact clearRouteFdN_pairwise (clearRouteFdN_pairwise hrd)

/-! Small projection lemmas. -/

theorem callbackAdd_cb_ne (s : St) (fd : Nat) (peer : Int) (rfn wfn : Option Handler)
    {n : Nat} (h : n ≠ fd) : (callbackAdd s fd peer rfn wfn).cb n = s.cb n := by
  simp [callbackAdd, h]

theorem callbackAdd_cb_eq (s : St) (fd : Nat) (peer : Int) (rfn wfn : Option Handler) :
    (callbackAdd s fd peer rfn wfn).cb fd
      = { write_fn := wfn, read_fn := rfn, peer_fd := peer } := by
  simp [callbackAdd]

theorem setCb_cb_ne (s : St) (fd : Nat) (c : Callback) {n : Nat} (h : n ≠ fd) :
    (setCb s fd c).cb n = s.cb n := by
  simp [setCb, h]

theorem setCb_cb_eq (s : St) (fd : Nat) (c : Callback) : (setCb s fd c).cb fd = c := by
  simp [setCb]

/-! Invariant preservation for the simple state updates. -/

theorem inv_addOpen (s : St) (f : Nat) (hInv : Inv s) : Inv (addOpen s f) := by
  obtain ⟨hpw, hfp, hdj, hrw, hrd⟩ := hInv
  refine ⟨?_, hfp, hdj, ?_, hrd⟩
  · intro p hp
    have hw := hpw p hp
    exact ⟨hw.1, hw.2.1, hw.2.2.1,
      List.mem_cons_of_mem f hw.2.2.2.1, List.mem_cons_of_mem f hw.2.2.2.2.1,
      hw.2.2.2.2.2.1, hw.2.2.2.2.2.2.1, hw.2.2.2.2.2.2.2.1,
      hw.2.2.2.2.2.2.2.2.1, hw.2.2.2.2.2.2.2.2.2.1, hw.2.2.2.2.2.2.2.2.2.2⟩
  · intro r hr hpos
    have hw := hrw r hr hpos
    exact ⟨hw.1, List.mem_cons_of_mem f hw.2.1, hw.2.2⟩

/-- Updating a slot without touching its handlers or its peer keeps the
invariant. -/
theorem inv_setCb_keep (s : St) (x : Nat) (c' : Callback) (hInv : Inv s)
    (hrf : c'.read_fn = (s.cb x).read_fn) (hwf : c'.write_fn = (s.cb x).write_fn)
    (hpf : c'.peer_fd = (s.cb x).peer_fd) : Inv (setCb s x c') := by
  obtain ⟨hpw, hfp, hdj, hrw, hrd⟩ := hInv
  have hf : ∀ n : Nat, ((setCb s x c').cb n).read_fn = (s.cb n).read_fn ∧
      ((setCb s x c').cb n).write_fn = (s.cb n).write_fn ∧
      ((setCb s x c').cb n).peer_fd = (s.cb n).peer_fd := by
    intro n
    by_cases h : n = x
    · subst h
      rw [setCb_cb_eq]
      exact ⟨hrf, hwf, hpf⟩
    · rw [setCb_cb_ne s x c' h]
      exact ⟨rfl, rfl, rfl⟩
  refine ⟨?_, ?_, hdj, ?_, hrd⟩
  · intro p hp
    have hw := hpw p hp
    exact ⟨hw.1, hw.2.1, hw.2.2.1, hw.2.2.2.1, hw.2.2.2.2.1,
      by rw [(hf p.1).1]; exact hw.2.2.2.2.2.1,
      by rw [(hf p.1).2.1]; exact hw.2.2.2.2.2.2.1,
      by rw [(hf p.1).2.2]; exact hw.2.2.2.2.2.2.2.1,
      by rw [(hf p.2).1]; exact hw.2.2.2.2.2.2.2.2.1,
      by rw [(hf p.2).2.1]; exact hw.2.2.2.2.2.2.2.2.2.1,
      by rw [(hf p.2).2.2]; exact hw.2.2.2.2.2.2.2.2.2.2⟩
  · intro a ha
    rw [(hf a).1, (hf a).2.1] at ha
    exact hfp a ha
  · intro r hr hpos
    have hw := hrw r hr hpos
    exact ⟨hw.1, hw.2.1, by rw [(hf _).1]; exact hw.2.2⟩

/-- Registering a control (OnCommand) handler on a descriptor that was not
open keeps the invariant. -/
theorem inv_register_cmd (st : St) (f : Nat) (hInv : Inv st) (hf : f ∉ st.openFds) :
    Inv (callbackAdd (addOpen st f) f (-1) (some .hCommand) none) := by
  obtain ⟨hpw, hfp, hdj, hrw, hrd⟩ := hInv
  refine ⟨?_, ?_, hdj, ?_, hrd⟩
  · intro p hp
    have hw := hpw p hp
    have h1 : p.1 ≠ f := fun h => hf (h ▸ hw.2.2.2.1)
    have h2 : p.2 ≠ f := fun h => hf (h ▸ hw.2.2.2.2.1)
    rw [callbackAdd_cb_ne _ _ _ _ _ h1, callbackAdd_cb_ne _ _ _ _ _ h2]
    exact ⟨hw.1, hw.2.1, hw.2.2.1,
      List.mem_cons_of_mem f hw.2.2.2.1, List.mem_cons_of_mem f hw.2.2.2.2.1,
      hw.2.2.2.2.2.1, hw.2.2.2.2.2.2.1, hw.2.2.2.2.2.2.2.1,
      hw.2.2.2.2.2.2.2.2.1, hw.2.2.2.2.2.2.2.2.2.1, hw.2.2.2.2.2.2.2.2.2.2⟩
  · intro a ha
    by_cases haf : a = f
    · subst haf
      rw [callbackAdd_cb_eq] at ha
      rcases ha with h | h <;> simp at h
    · rw [callbackAdd_cb_ne _ _ _ _ _ haf] at ha
      exact hfp a ha
  · intro r hr hpos
    have hw := hrw r hr hpos
    have hne : r.source_fd.toNat ≠ f := fun h => hf (h ▸ hw.2.1)
    refine ⟨hw.1, List.mem_cons_of_mem f hw.2.1, ?_⟩
    rw [callbackAdd_cb_ne _ _ _ _ _ hne]
    exact hw.2.2

/-! Invariant preservation for AddRoute. -/

theorem inv_insertRoute (s : St) (nr : Route) (hInv : Inv s) (hnr : nr.source_fd = -1) :
    Inv (insertRoute s nr) := by
  obtain ⟨hpw, hfp, hdj, hrw, hrd⟩ := hInv
  by_cases hempty : s.routes = []
  · have hstep : insertRoute s nr = { s with routes := [nr] } := by
      simp [insertRoute, hempty]
    rw [hstep]
    refine ⟨hpw, hfp, hdj, ?_, List.pairwise_singleton _ _⟩
    intro r hr hpos
    have hrn : r = nr := by simpa using hr
    rw [hrn, hnr] at hpos
    exact absurd hpos (by norm_num)
  · cases hfind : getRouteIpR s.routes nr.source_ip with
    | none =>
        have hstep : insertRoute s nr = { s with routes := nr :: s.routes } := by
          simp [insertRoute, hempty, hfind]
        rw [hstep]
        refine ⟨hpw, hfp, hdj, ?_, ?_⟩
        · intro r hr hpos
          rcases List.mem_cons.mp hr with rfl | h2
          · rw [hnr] at hpos
            exact absurd hpos (by norm_num)
          · exact hrw r h2 hpos
        · show List.Pairwise routeNoFdClash (nr :: s.routes)
          rw [List.pairwise_cons]
          refine ⟨?_, hrd⟩
          intro r _ h1
          rw [hnr] at h1
          exact absurd h1 (by norm_num)
    | some rt =>
        by_cases hlt : rt.source_fd < 0
        · have hstep : insertRoute s nr
              = { s with routes := (updateTarget s.routes nr.source_ip
                    nr.target_ip nr.target_port) } := by
            simp [insertRoute, hempty, hfind, hlt]
          rw [hstep]
          refine ⟨hpw, hfp, hdj, ?_, updateTarget_pairwise hrd⟩
          intro r hr hpos
          obtain ⟨r0, h0, hfd⟩ := updateTarget_mem r hr
          rw [hfd] at hpos ⊢
          exact hrw r0 h0 hpos
        · have hpos0 : 0 ≤ rt.source_fd := by omega
          have hrt_mem : rt ∈ s.routes := by
            obtain ⟨hip, pre, post, heq, hpre⟩ := getRouteIpR_split hfind
            rw [heq]
            simp
          have hw0 := hrw rt hrt_mem hpos0
          have hcbi : getCallbackI s rt.source_fd = some (s.cb rt.source_fd.toNat) := by
            unfold getCallbackI
            rw [if_pos ⟨hpos0, hw0.1⟩]
          have hstep : insertRoute s nr
              = { closeSock s rt.source_fd (s.cb rt.source_fd.toNat).peer_fd with
                  routes := updateTargetClear
                    (closeSock s rt.source_fd (s.cb rt.source_fd.toNat).peer_fd).routes
                    nr.source_ip nr.target_ip nr.target_port } := by
            simp [insertRoute, hempty, hfind, hlt, hcbi]
          rw [hstep]
          obtain ⟨p, hpm, hor⟩ := hfp rt.source_fd.toNat (Or.inl hw0.2.2)
          have hfdeq : rt.source_fd = (rt.source_fd.toNat : Int) :=
            (Int.toNat_of_nonneg hpos0).symm
          have hclose : Inv (closeSock s rt.source_fd (s.cb rt.source_fd.toNat).peer_fd) := by
            have hpw2 := hpw p hpm
            rcases hor with h1 | h1
            · have hpeer : (s.cb rt.source_fd.toNat).peer_fd = (p.2 : Int) := by
                rw [← h1]
                exact hpw2.2.2.2.2.2.2.2.1
              rw [hpeer, hfdeq]
              refine inv_closeSock_pair s rt.source_fd.toNat p.2
                ⟨hpw, hfp, hdj, hrw, hrd⟩ (Or.inl ?_)
              have hpe : (rt.source_fd.toNat, p.2) = p := by
                rw [← h1]
              rw [hpe]
              exact hpm
            · have hpeer : (s.cb rt.source_fd.toNat).peer_fd = (p.1 : Int) := by
                rw [← h1]
                exact hpw2.2.2.2.2.2.2.2.2.2.2
              rw [hpeer, hfdeq]
              refine inv_closeSock_pair s rt.source_fd.toNat p.1
                ⟨hpw, hfp, hdj, hrw, hrd⟩ (Or.inr ?_)
              have hpe : (p.1, rt.source_fd.toNat) = p := by
                rw [← h1]
              rw [hpe]
              exact hpm
          obtain ⟨hpw3, hfp3, hdj3, hrw3, hrd3⟩ := hclose
          refine ⟨hpw3, hfp3, hdj3, ?_, updateTargetClear_pairwise hrd3⟩
          intro r hr hpos
          rcases updateTargetClear_mem r hr with ⟨r0, h4, h5⟩ | h4
          · rw [h5] at hpos ⊢
            exact hrw3 r0 h4 hpos
          · rw [h4] at hpos
            exact absurd hpos (by norm_num)

theorem inv_foldl_insert (tf : Fam) (tip : IpStr) (tp : Nat) :
    ∀ (l : List (Fam × IpStr)) (st : St), Inv st →
      Inv (l.foldl (fun st2 p => insertRoute st2 (mkRoute p.1 p.2 tf tip tp)) st) := by
  intro l
  induction l with
  | nil => intro st h; exact h
  | cons p ps ih =>
      intro st h
      exact ih _ (inv_insertRoute _ _ h rfl)

theorem inv_addRouteConf (s : St) (conf : IpStr) (dns : DnsOut) (hInv : Inv s) :
    Inv (addRouteConf s conf dns) := by
  unfold addRouteConf
  by_cases hc : conf = []
  · rw [if_pos hc]
    exact hInv
  · rw [if_neg hc]
    cases hp : parseRoute conf with
    | none => exact hInv
    | some x =>
        obtain ⟨sh, th, tp⟩ := x
        show Inv (addRouteHosts s (trimBytes sh) (trimBytes th) tp dns)
        unfold addRouteHosts
        by_cases ha : trimBytes sh = [] ∨ trimBytes th = [] ∨ tp = 0
        · rw [if_pos ha]
          exact hInv
        · rw [if_neg ha]
          cases ht : dns.target with
          | none => exact hInv
          | some y =>
              obtain ⟨tf, tip⟩ := y
              exact inv_foldl_insert tf tip tp dns.sources s hInv

theorem inv_processCmd (s : St) (cmd : List Nat) (dns : DnsOut) (hInv : Inv s) :
    Inv (processCmd s cmd dns) := by
  unfold processCmd
  cases hcl : classifyCmd cmd with
  | exitCmd => exact hInv
  | addCmd conf => exact inv_addRouteConf s conf dns hInv
  | unknown => exact hInv

/-! Pairs and open descriptors only shrink along the command path. -/

theorem closeSock_pairs_sub (s : St) (fd1 fd2 : Int) : (closeSock s fd1 fd2).pairs ⊆ s.pairs :=
  fun x hx => closeOne_pairs_sub s fd1 (closeOne_pairs_sub (closeOne s fd1) fd2 hx)

theorem closeSock_open_sub (s : St) (fd1 fd2 : Int) :
    (closeSock s fd1 fd2).openFds ⊆ s.openFds :=
  fun x hx => closeOne_open_sub s fd1 (closeOne_open_sub (closeOne s fd1) fd2 hx)

theorem insertRoute_pairs_sub (s : St) (nr : Route) : (insertRoute s nr).pairs ⊆ s.pairs := by
  by_cases hempty : s.routes = []
  · have hstep : insertRoute s nr = { s with routes := [nr] } := by
      simp [insertRoute, hempty]
    rw [hstep]
    exact fun x hx => hx
  · cases hfind : getRouteIpR s.routes nr.source_ip with
    | none =>
        have hstep : insertRoute s nr = { s with routes := nr :: s.routes } := by
          simp [insertRoute, hempty, hfind]
        rw [hstep]
        exact fun x hx => hx
    | some rt =>
        by_cases hlt : rt.source_fd < 0
        · have hstep : insertRoute s nr
              = { s with routes := (updateTarget s.routes nr.source_ip
                    nr.target_ip nr.target_port) } := by
            simp [insertRoute, hempty, hfind, hlt]
          rw [hstep]
          exact fun x hx => hx
        · cases hcb : getCallbackI s rt.source_fd with
          | none =>
              have hstep : insertRoute s nr = s := by
                simp [insertRoute, hempty, hfind, hlt, hcb]
              rw [hstep]
              exact fun x hx => hx
          | some c =>
              have hstep : insertRoute s nr
                  = { closeSock s rt.source_fd c.peer_fd with
                      routes := (updateTargetClear (closeSock s rt.source_fd c.peer_fd).routes
                        nr.source_ip nr.target_ip nr.target_port) } := by
                simp [insertRoute, hempty, hfind, hlt, hcb]
              rw [hstep]
              exact fun x hx => closeSock_pairs_sub s rt.source_fd c.peer_fd hx

theorem insertRoute_open_sub (s : St) (nr : Route) : (insertRoute s nr).openFds ⊆ s.openFds := by
  by_cases hempty : s.routes = []
  · have hstep : insertRoute s nr = { s with routes := [nr] } := by
      simp [insertRoute, hempty]
    rw [hstep]
    exact fun x hx => hx
  · cases hfind : getRouteIpR s.routes nr.source_ip with
    | none =>
        have hstep : insertRoute s nr = { s with routes := nr :: s.routes } := by
          simp [insertRoute, hempty, hfind]
        rw [hstep]
        exact fun x hx => hx
    | some rt =>
        by_cases hlt : rt.source_fd < 0
        · have hstep : insertRoute s nr
              = { s with routes := (updateTarget s.routes nr.source_ip
                    nr.target_ip nr.target_port) } := by
            simp [insertRoute, hempty, hfind, hlt]
          rw [hstep]
          exact fun x hx => hx
        · cases hcb : getCallbackI s rt.source_fd with
          | none =>
              have hstep : insertRoute s nr = s := by
                simp [insertRoute, hempty, hfind, hlt, hcb]
              rw [hstep]
              exact fun x hx => hx
          | some c =>
              have hstep : insertRoute s nr
                  = { closeSock s rt.source_fd c.peer_fd with
                      routes := (updateTargetClear (closeSock s rt.source_fd c.peer_fd).routes
                        nr.source_ip nr.target_ip nr.target_port) } := by
                simp [insertRoute, hempty, hfind, hlt, hcb]
              rw [hstep]
              exact fun x hx => closeSock_open_sub s rt.source_fd c.peer_fd hx

theorem foldl_insert_pairs_sub (tf : Fam) (tip : IpStr) (tp : Nat) :
    ∀ (l : List (Fam × IpStr)) (st : St),
      (l.foldl (fun st2 p => insertRoute st2 (mkRoute p.1 p.2 tf tip tp)) st).pairs ⊆ st.pairs := by
  intro l
  induction l with
  | nil => intro st x hx; exact hx
  | cons p ps ih =>
      intro st x hx
      exact insertRoute_pairs_sub st _ (ih (insertRoute st (mkRoute p.1 p.2 tf tip tp)) hx)

theorem foldl_insert_open_sub (tf : Fam) (tip : IpStr) (tp : Nat) :
    ∀ (l : List (Fam × IpStr)) (st : St),
      (l.foldl (fun st2 p => insertRoute st2 (mkRoute p.1 p.2 tf tip tp)) st).openFds
        ⊆ st.openFds := by
  intro l
  induction l with
  | nil => intro st x hx; exact hx
  | cons p ps ih =>
      intro st x hx
      exact insertRoute_open_sub st _ (ih (insertRoute st (mkRoute p.1 p.2 tf tip tp)) hx)

theorem addRouteConf_pairs_sub (s : St) (conf : IpStr) (dns : DnsOut) :
    (addRouteConf s conf dns).pairs ⊆ s.pairs := by
  unfold addRouteConf
  by_cases hc : conf = []
  · rw [if_pos hc]
    exact fun x hx => hx
  · rw [if_neg hc]
    cases hp : parseRoute conf with
    | none => exact fun x hx => hx
    | some x0 =>
        obtain ⟨sh, th, tp⟩ := x0
        show (addRouteHosts s (trimBytes sh) (trimBytes th) tp dns).pairs ⊆ s.pairs
        unfold addRouteHosts
        by_cases ha : trimBytes sh = [] ∨ trimBytes th = [] ∨ tp = 0
        · rw [if_pos ha]
          exact fun x hx => hx
        · rw [if_neg ha]
          cases ht : dns.target with
          | none => exact fun x hx => hx
          | some y =>
              obtain ⟨tf, tip⟩ := y
              exact foldl_insert_pairs_sub tf tip tp dns.sources s

theorem addRouteConf_open_sub (s : St) (conf : IpStr) (dns : DnsOut) :
    (addRouteConf s conf dns).openFds ⊆ s.openFds := by
  unfold addRouteConf
  by_cases hc : conf = []
  · rw [if_pos hc]
    exact fun x hx => hx
  · rw [if_neg hc]
    cases hp : parseRoute conf with
    | none => exact fun x hx => hx
    | some x0 =>
        obtain ⟨sh, th, tp⟩ := x0
        show (addRouteHosts s (trimBytes sh) (trimBytes th) tp dns).openFds ⊆ s.openFds
        unfold addRouteHosts
        by_cases ha : trimBytes sh = [] ∨ trimBytes th = [] ∨ tp = 0
        · rw [if_pos ha]
          exact fun x hx => hx
        · rw [if_neg ha]
          cases ht : dns.target with
          | none => exact fun x hx => hx
          | some y =>
              obtain ⟨tf, tip⟩ := y
              exact foldl_insert_open_sub tf tip tp dns.sources s

theorem processCmd_pairs_sub (s : St) (cmd : List Nat) (dns : DnsOut) :
    (processCmd s cmd dns).pairs ⊆ s.pairs := by
  unfold processCmd
  cases hcl : classifyCmd cmd with
  | exitCmd => exact fun x hx => hx
  | addCmd conf => exact addRouteConf_pairs_sub s conf dns
  | unknown => exact fun x hx => hx

theorem processCmd_open_sub (s : St) (cmd : List Nat) (dns : DnsOut) :
    (processCmd s cmd dns).openFds ⊆ s.openFds := by
  unfold processCmd
  cases hcl : classifyCmd cmd with
  | exitCmd => exact fun x hx => hx
  | addCmd conf => exact addRouteConf_open_sub s conf dns
  | unknown => exact fun x hx => hx

/-! Invariant preservation for the forwarding handlers. -/

/-- A descriptor whose slot carries a forwarding handler has a well-formed
peer on the other end of its pair. -/
theorem fwd_peer_facts (s : St) (fd : Nat) (hInv : Inv s)
    (hv : (s.cb fd).read_fn = some .hRead ∨ (s.cb fd).write_fn = some .hWrite) :
    ∃ b : Nat, fd < 1024 ∧ b < 1024 ∧ (s.cb fd).peer_fd = (b : Int) ∧
      ((fd, b) ∈ s.pairs ∨ (b, fd) ∈ s.pairs) := by
  obtain ⟨hpw, hfp, hdj, hrw, hrd⟩ := hInv
  obtain ⟨p, hpm, hor⟩ := hfp fd hv
  have hw := hpw p hpm
  rcases hor with h1 | h1
  · refine ⟨p.2, ?_, hw.2.2.1, ?_, Or.inl ?_⟩
    · rw [← h1]
      exact hw.2.1
    · rw [← h1]
      exact hw.2.2.2.2.2.2.2.1
    · have hpe : (fd, p.2) = p := by rw [← h1]
      rw [hpe]
      exact hpm
  · refine ⟨p.1, ?_, hw.2.1, ?_, Or.inr ?_⟩
    · rw [← h1]
      exact hw.2.2.1
    · rw [← h1]
      exact hw.2.2.2.2.2.2.2.2.2.2
    · have hpe : (p.1, fd) = p := by rw [← h1]
      rw [hpe]
      exact hpm

theorem inv_onRead (s : St) (fd : Nat) (o : ReadOut) (hInv : Inv s)
    (hv : (s.cb fd).read_fn = some .hRead) : Inv (onRead s fd o) := by
  obtain ⟨b, hfd1024, hb1024, hpeer, hpair⟩ := fwd_peer_facts s fd hInv (Or.inl hv)
  have hcN : getCallbackN s fd = some (s.cb fd) := by
    unfold getCallbackN
    rw [if_pos hfd1024]
  have hcI : getCallbackI s (s.cb fd).peer_fd = some (s.cb b) := by
    rw [hpeer]
    unfold getCallbackI
    rw [if_pos ⟨by positivity, by exact_mod_cast hb1024⟩]
    rw [Int.toNat_natCast]
  by_cases hlen : (s.cb b).len = 0
  · cases o with
    | eof =>
        have hstep : onRead s fd .eof = closeSock s fd (s.cb fd).peer_fd := by
          simp [onRead, hcN, hcI, hlen]
        rw [hstep, hpeer]
        exact inv_closeSock_pair s fd b hInv hpair
    | rerr t =>
        cases t with
        | true =>
            have hstep : onRead s fd (.rerr true) = s := by
              simp [onRead, hcN, hcI, hlen]
            rw [hstep]
            exact hInv
        | false =>
            have hstep : onRead s fd (.rerr false) = closeSock s fd (s.cb fd).peer_fd := by
              simp [onRead, hcN, hcI, hlen]
            rw [hstep, hpeer]
            exact inv_closeSock_pair s fd b hInv hpair
    | rok bs =>
        have hstep : onRead s fd (.rok bs)
            = setCb s ((s.cb fd).peer_fd).toNat
                { s.cb b with buf := writeBytes (s.cb b).buf bs, len := bs.length } := by
          simp [onRead, hcN, hcI, hlen]
        rw [hstep, hpeer, Int.toNat_natCast]
        exact inv_setCb_keep s b _ hInv rfl rfl rfl
  · have hstep : onRead s fd o = s := by
      cases o <;> simp [onRead, hcN, hcI, hlen]
    rw [hstep]
    exact hInv

theorem inv_onWrite (s : St) (fd : Nat) (o : WriteOut) (hInv : Inv s)
    (hv : (s.cb fd).write_fn = some .hWrite) : Inv (onWrite s fd o) := by
  obtain ⟨b, hfd1024, hb1024, hpeer, hpair⟩ := fwd_peer_facts s fd hInv (Or.inr hv)
  have hcN : getCallbackN s fd = some (s.cb fd) := by
    unfold getCallbackN
    rw [if_pos hfd1024]
  by_cases hlen : (s.cb fd).len = 0
  · have hstep : onWrite s fd o = s := by
      cases o <;> simp [onWrite, hcN, hlen]
    rw [hstep]
    exact hInv
  · cases o with
    | wzero =>
        have hstep : onWrite s fd .wzero = closeSock s fd (s.cb fd).peer_fd := by
          simp [onWrite, hcN, hlen]
        rw [hstep, hpeer]
        exact inv_closeSock_pair s fd b hInv hpair
    | werr t =>
        cases t with
        | true =>
            have hstep : onWrite s fd (.werr true) = s := by
              simp [onWrite, hcN, hlen]
            rw [hstep]
            exact hInv
        | false =>
            have hstep : onWrite s fd (.werr false) = closeSock s fd (s.cb fd).peer_fd := by
              simp [onWrite, hcN, hlen]
            rw [hstep, hpeer]
            exact inv_closeSock_pair s fd b hInv hpair
    | wok n =>
        by_cases hn : n < (s.cb fd).len
        · have hstep : onWrite s fd (.wok n)
              = setCb s fd
                  { s.cb fd with
                    buf := shiftBuf (s.cb fd).buf n (s.cb fd).len
                    len := (s.cb fd).len - n } := by
            simp [onWrite, hcN, hlen, hn]
          rw [hstep]
          exact inv_setCb_keep s fd _ hInv rfl rfl rfl
        · have hstep : onWrite s fd (.wok n) = setCb s fd { s.cb fd with len := 0 } := by
            simp [onWrite, hcN, hlen, hn]
          rw [hstep]
          exact inv_setCb_keep s fd _ hInv rfl rfl rfl

/-- Establishing a fresh forwarding pair — two slot registrations, the new
pair, and binding the route — preserves the invariant. -/
theorem inv_establish (s : St) (sfd tfd : Nat) (ip : IpStr) (hInv : Inv s)
    (hs : sfd ∉ s.openFds) (ht : tfd ∉ s.openFds) (hne : tfd ≠ sfd)
    (hs1024 : sfd < 1024) (ht1024 : tfd < 1024) :
    Inv { callbackAdd (callbackAdd (addOpen (addOpen s sfd) tfd) sfd (tfd : Int)
            (some .hRead) (some .hWrite)) tfd (sfd : Int) (some .hRead) (some .hWrite) with
          pairs := (sfd, tfd) :: s.pairs,
          routes := setRouteFdByIp s.routes ip sfd } := by
  obtain ⟨hpw, hfp, hdj, hrw, hrd⟩ := hInv
  have hcb_s : (callbackAdd (callbackAdd (addOpen (addOpen s sfd) tfd) sfd (tfd : Int)
      (some .hRead) (some .hWrite)) tfd (sfd : Int) (some .hRead) (some .hWrite)).cb sfd
      = { write_fn := some .hWrite, read_fn := some .hRead, peer_fd := (tfd : Int) } := by
    rw [callbackAdd_cb_ne _ _ _ _ _ (fun h => hne h.symm)]
    rw [callbackAdd_cb_eq]
  have hcb_t : (callbackAdd (callbackAdd (addOpen (addOpen s sfd) tfd) sfd (tfd : Int)
      (some .hRead) (some .hWrite)) tfd (sfd : Int) (some .hRead) (some .hWrite)).cb tfd
      = { write_fn := some .hWrite, read_fn := some .hRead, peer_fd := (sfd : Int) } := by
    rw [callbackAdd_cb_eq]
  have hcb_other : ∀ n : Nat, n ≠ sfd → n ≠ tfd →
      (callbackAdd (callbackAdd (addOpen (addOpen s sfd) tfd) sfd (tfd : Int)
        (some .hRead) (some .hWrite)) tfd (sfd : Int) (some .hRead) (some .hWrite)).cb n
      = s.cb n := by
    intro n h1 h2
    rw [callbackAdd_cb_ne _ _ _ _ _ h2, callbackAdd_cb_ne _ _ _ _ _ h1]
    rfl
  refine ⟨?_, ?_, ?_, ?_, ?_⟩
  · intro p hp
    rcases List.mem_cons.mp hp with rfl | hp2
    · refine ⟨Ne.symm hne, hs1024, ht1024, ?_, ?_, ?_, ?_, ?_, ?_, ?_, ?_⟩
      · show sfd ∈ tfd :: sfd :: s.openFds
        simp
      · show tfd ∈ tfd :: sfd :: s.openFds
        simp
      · rw [hcb_s]
      · rw [hcb_s]
      · rw [hcb_s]
      · rw [hcb_t]
      · rw [hcb_t]
      · rw [hcb_t]
    · have hw := hpw p hp2
      have h1s : p.1 ≠ sfd := fun h => hs (h ▸ hw.2.2.2.1)
      have h1t : p.1 ≠ tfd := fun h => ht (h ▸ hw.2.2.2.1)
      have h2s : p.2 ≠ sfd := fun h => hs (h ▸ hw.2.2.2.2.1)
      have h2t : p.2 ≠ tfd := fun h => ht (h ▸ hw.2.2.2.2.1)
      rw [hcb_other p.1 h1s h1t, hcb_other p.2 h2s h2t]
      exact ⟨hw.1, hw.2.1, hw.2.2.1,
        List.mem_cons_of_mem tfd (List.mem_cons_of_mem sfd hw.2.2.2.1),
        List.mem_cons_of_mem tfd (List.mem_cons_of_mem sfd hw.2.2.2.2.1),
        hw.2.2.2.2.2.1, hw.2.2.2.2.2.2.1, hw.2.2.2.2.2.2.2.1,
        hw.2.2.2.2.2.2.2.2.1, hw.2.2.2.2.2.2.2.2.2.1, hw.2.2.2.2.2.2.2.2.2.2⟩
  · intro a ha
    by_cases has : a = sfd
    · subst has
      exact ⟨(a, tfd), List.mem_cons_self _ _, Or.inl rfl⟩
    · by_cases hat : a = tfd
      · subst hat
        exact ⟨(sfd, a), List.mem_cons_self _ _, Or.inr rfl⟩
      · rw [hcb_other a has hat] at ha
        obtain ⟨p, hpm, hor⟩ := hfp a ha
        exact ⟨p, List.mem_cons_of_mem _ hpm, hor⟩
  · show List.Pairwise pairNoClash ((sfd, tfd) :: s.pairs)
    rw [List.pairwise_cons]
    refine ⟨?_, hdj⟩
    intro q hq
    have hw := hpw q hq
    refine ⟨?_, ?_, ?_, ?_⟩
    · intro h
      have h2 : sfd = q.1 := h
      exact hs (by rw [h2]; exact hw.2.2.2.1)
    · intro h
      have h2 : sfd = q.2 := h
      exact hs (by rw [h2]; exact hw.2.2.2.2.1)
    · intro h
      have h2 : tfd = q.1 := h
      exact ht (by rw [h2]; exact hw.2.2.2.1)
    · intro h
      have h2 : tfd = q.2 := h
      exact ht (by rw [h2]; exact hw.2.2.2.2.1)
  · intro r hr hpos
    rcases setRouteFdByIp_mem r hr with h1 | ⟨r0, h2, rfl⟩
    · have hw := hrw r h1 hpos
      have hts : r.source_fd.toNat ≠ sfd := fun h => hs (h ▸ hw.2.1)
      have htt : r.source_fd.toNat ≠ tfd := fun h => ht (h ▸ hw.2.1)
      rw [hcb_other _ hts htt]
      exact ⟨hw.1, List.mem_cons_of_mem tfd (List.mem_cons_of_mem sfd hw.2.1), hw.2.2⟩
    · refine ⟨?_, ?_, ?_⟩
      · show (sfd : Int) < 1024
        exact_mod_cast hs1024
      · rw [Int.toNat_natCast]
        show sfd ∈ tfd :: sfd :: s.openFds
        simp
      · rw [Int.toNat_natCast, hcb_s]
  · show List.Pairwise routeNoFdClash (setRouteFdByIp s.routes ip sfd)
    apply setRouteFdByIp_pairwise hrd
    intro r hr heq
    have h0 : 0 ≤ r.source_fd := by
      rw [heq]
      positivity
    have hmem := (hrw r hr h0).2.1
    rw [heq, Int.toNat_natCast] at hmem
    exact hs hmem

theorem inv_onConnect (s : St) (fd : Nat) (o : ConnectOracle) (hInv : Inv s)
    (hv : (s.cb fd).read_fn = some .hConnect) (hvalid : accValid s o = true) :
    Inv (onConnect s fd o) := by
  have hnp_fd : ¬ pairMem s fd := by
    intro hm
    obtain ⟨p, hpm, hor⟩ := hm
    have hw := hInv.1 p hpm
    rcases hor with h1 | h1
    · rw [← h1] at hv
      rw [hw.2.2.2.2.2.1] at hv
      simp at hv
    · rw [← h1] at hv
      rw [hw.2.2.2.2.2.2.2.2.1] at hv
      simp at hv
  cases hacc : o.acc with
  | fail t =>
      have hstep : onConnect s fd o = closeSock s fd (-1) := by
        simp [onConnect, hacc]
      rw [hstep]
      apply inv_closeSock_nonpair s fd (-1) hInv
      · intro _
        rw [Int.toNat_natCast]
        exact hnp_fd
      · intro h0
        exact absurd h0 (by norm_num)
  | ok sfd fam ip =>
      have hval : sfd ∉ s.openFds := by
        have h2 := hvalid
        unfold accValid at h2
        rw [hacc] at h2
        cases hsock : o.sock with
        | fail =>
            rw [hsock] at h2
            simp at h2
            exact h2
        | ok tfd =>
            rw [hsock] at h2
            simp at h2
            exact h2.1
      have hnp_sfd : ¬ pairMem s sfd := not_pairMem_of_not_open hInv.1 hval
      have hs1 : Inv (addOpen s sfd) := inv_addOpen s sfd hInv
      have hnp_sfd1 : ¬ pairMem (addOpen s sfd) sfd := hnp_sfd
      by_cases hbig : 1024 ≤ sfd
      · have hstep : onConnect s fd o = closeSock (addOpen s sfd) sfd (-1) := by
          simp [onConnect, hacc, hbig]
        rw [hstep]
        apply inv_closeSock_nonpair _ _ _ hs1
        · intro _
          rw [Int.toNat_natCast]
          exact hnp_sfd1
        · intro h0
          exact absurd h0 (by norm_num)
      · by_cases hasync : o.srcAsync = false
        · have hstep : onConnect s fd o = closeSock (addOpen s sfd) sfd (-1) := by
            simp [onConnect, hacc, hbig, hasync]
          rw [hstep]
          apply inv_closeSock_nonpair _ _ _ hs1
          · intro _
            rw [Int.toNat_natCast]
            exact hnp_sfd1
          · intro h0
            exact absurd h0 (by norm_num)
        · by_cases hfam : fam = .other
          · have hstep : onConnect s fd o = closeSock (addOpen s sfd) sfd (-1) := by
              simp [onConnect, hacc, hbig, hasync, hfam]
            rw [hstep]
            apply inv_closeSock_nonpair _ _ _ hs1
            · intro _
              rw [Int.toNat_natCast]
              exact hnp_sfd1
            · intro h0
              exact absurd h0 (by norm_num)
          · cases hroute : getRouteIpR (addOpen s sfd).routes ip with
            | none =>
                have hstep : onConnect s fd o = closeSock (addOpen s sfd) sfd (-1) := by
                  simp [onConnect, hacc, hbig, hasync, hfam, hroute]
                rw [hstep]
                apply inv_closeSock_nonpair _ _ _ hs1
                · intro _
                  rw [Int.toNat_natCast]
                  exact hnp_sfd1
                · intro h0
                  exact absurd h0 (by norm_num)
            | some rt0 =>
                cases hsock : o.sock with
                | fail =>
                    have hstep : onConnect s fd o = closeSock (addOpen s sfd) sfd (-1) := by
                      simp [onConnect, hacc, hbig, hasync, hfam, hroute, hsock]
                    rw [hstep]
                    apply inv_closeSock_nonpair _ _ _ hs1
                    · intro _
                      rw [Int.toNat_natCast]
                      exact hnp_sfd1
                    · intro h0
                      exact absurd h0 (by norm_num)
                | ok tfd =>
                    have hvalt : tfd ∉ s.openFds ∧ tfd ≠ sfd := by
                      have h2 := hvalid
                      unfold accValid at h2
                      rw [hacc, hsock] at h2
                      simp at h2
                      exact ⟨h2.2.1, h2.2.2⟩
                    have hnp_tfd : ¬ pairMem s tfd := not_pairMem_of_not_open hInv.1 hvalt.1
                    have hs2 : Inv (addOpen (addOpen s sfd) tfd) :=
                      inv_addOpen _ tfd hs1
                    by_cases htbig : 1024 ≤ tfd
                    · have hstep : onConnect s fd o
                          = closeSock (addOpen (addOpen s sfd) tfd) sfd tfd := by
                        simp [onConnect, hacc, hbig, hasync, hfam, hroute, hsock, htbig]
                      rw [hstep]
                      apply inv_closeSock_nonpair _ _ _ hs2
                      · intro _
                        rw [Int.toNat_natCast]
                        exact hnp_sfd
                      · intro _
                        rw [Int.toNat_natCast]
                        exact hnp_tfd
                    · by_cases htasync : o.tgtAsync = false
                      · have hstep : onConnect s fd o
                            = closeSock (addOpen (addOpen s sfd) tfd) sfd tfd := by
                          simp [onConnect, hacc, hbig, hasync, hfam, hroute, hsock, htbig,
                            htasync]
                        rw [hstep]
                        apply inv_closeSock_nonpair _ _ _ hs2
                        · intro _
                          rw [Int.toNat_natCast]
                          exact hnp_sfd
                        · intro _
                          rw [Int.toNat_natCast]
                          exact hnp_tfd
                      · cases hconn : o.conn with
                        | connFail =>
                            have hstep : onConnect s fd o
                                = closeSock (addOpen (addOpen s sfd) tfd) sfd tfd := by
                              simp [onConnect, hacc, hbig, hasync, hfam, hroute, hsock,
                                htbig, htasync, hconn]
                            rw [hstep]
                            apply inv_closeSock_nonpair _ _ _ hs2
                            · intro _
                              rw [Int.toNat_natCast]
                              exact hnp_sfd
                            · intro _
                              rw [Int.toNat_natCast]
                              exact hnp_tfd
                        | connOk =>
                            have hstep : onConnect s fd o
                                = { callbackAdd (callbackAdd (addOpen (addOpen s sfd) tfd)
                                      sfd (tfd : Int) (some .hRead) (some .hWrite)) tfd
                                      (sfd : Int) (some .hRead) (some .hWrite) with
                                    pairs := (sfd, tfd) :: s.pairs,
                                    routes := setRouteFdByIp s.routes ip sfd } := by
                              have hroute2 : getRouteIpR s.routes ip = some rt0 := hroute
                              simp [onConnect, hacc, hbig, hasync, hfam, hroute2, hsock,
                                htbig, htasync, hconn, callbackAdd, addOpen]
                            rw [hstep]
                            exact inv_establish s sfd tfd ip hInv hval hvalt.1 hvalt.2
                              (by omega) (by omega)
                        | inProgress =>
                            have hstep : onConnect s fd o
                                = { callbackAdd (callbackAdd (addOpen (addOpen s sfd) tfd)
                                      sfd (tfd : Int) (some .hRead) (some .hWrite)) tfd
                                      (sfd : Int) (some .hRead) (some .hWrite) with
                                    pairs := (sfd, tfd) :: s.pairs,
                                    routes := setRouteFdByIp s.routes ip sfd } := by
                              have hroute2 : getRouteIpR s.routes ip = some rt0 := hroute
                              simp [onConnect, hacc, hbig, hasync, hfam, hroute2, hsock,
                                htbig, htasync, hconn, callbackAdd, addOpen]
                            rw [hstep]
                            exact inv_establish s sfd tfd ip hInv hval hvalt.1 hvalt.2
                              (by omega) (by omega)

theorem inv_onCommand (s : St) (fd : Nat) (o : CmdOracle) (hInv : Inv s)
    (hv : (s.cb fd).read_fn = some .hCommand) (hvalid : cmdValid s fd o = true) :
    Inv (onCommand s fd o) := by
  have hnp : ¬ pairMem s fd := by
    intro hm
    obtain ⟨p, hpm, hor⟩ := hm
    have hw := hInv.1 p hpm
    rcases hor with h1 | h1
    · rw [← h1] at hv
      rw [hw.2.2.2.2.2.1] at hv
      simp at hv
    · rw [← h1] at hv
      rw [hw.2.2.2.2.2.2.2.2.1] at hv
      simp at hv
  by_cases hfd : fd < 1024
  · have hcN : getCallbackN s fd = some (s.cb fd) := by
      unfold getCallbackN
      rw [if_pos hfd]
    cases hrd : o.rd with
    | rok bs =>
        have hstep : onCommand s fd o
            = setCb s fd
                { s.cb fd with
                  buf := appendBytes (s.cb fd).buf (s.cb fd).len bs
                  len := (s.cb fd).len + bs.length } := by
          simp [onCommand, hcN, hrd]
        rw [hstep]
        exact inv_setCb_keep s fd _ hInv rfl rfl rfl
    | rerr t =>
        cases t with
        | true =>
            have hstep : onCommand s fd o = s := by
              simp [onCommand, hcN, hrd]
            rw [hstep]
            exact hInv
        | false =>
            have hstep : onCommand s fd o
                = setCb s fd { s.cb fd with buf := zeroBuf, len := 0 } := by
              simp [onCommand, hcN, hrd]
            rw [hstep]
            exact inv_setCb_keep s fd _ hInv rfl rfl rfl
    | eof =>
        have hstep : onCommand s fd o
            = setCb (makeFifo (closeSock (processCmd s (trimBytes (cString (s.cb fd).buf))
                  o.dns) fd (-1)) o.newFifo) fd
                { (makeFifo (closeSock (processCmd s (trimBytes (cString (s.cb fd).buf))
                    o.dns) fd (-1)) o.newFifo).cb fd with buf := zeroBuf, len := 0 } := by
          simp [onCommand, hcN, hrd]
        rw [hstep]
        have hInv1 : Inv (processCmd s (trimBytes (cString (s.cb fd).buf)) o.dns) :=
          inv_processCmd s _ o.dns hInv
        have hnp1 : ¬ pairMem (processCmd s (trimBytes (cString (s.cb fd).buf)) o.dns) fd := by
          intro hm
          obtain ⟨p, hpm, hor⟩ := hm
          exact hnp ⟨p, processCmd_pairs_sub s _ o.dns hpm, hor⟩
        have hInv2 : Inv (closeSock (processCmd s (trimBytes (cString (s.cb fd).buf))
            o.dns) fd (-1)) := by
          apply inv_closeSock_nonpair _ _ _ hInv1
          · intro _
            rw [Int.toNat_natCast]
            exact hnp1
          · intro h0
            exact absurd h0 (by norm_num)
        have hInv3 : Inv (makeFifo (closeSock (processCmd s (trimBytes (cString (s.cb fd).buf))
            o.dns) fd (-1)) o.newFifo) := by
          cases hnf : o.newFifo with
          | none => exact hInv2
          | some nf =>
              have hfresh : nf ∉ (closeSock (processCmd s (trimBytes (cString (s.cb fd).buf))
                  o.dns) fd (-1)).openFds := by
                have h2 := hvalid
                unfold cmdValid at h2
                rw [hnf] at h2
                rw [Bool.and_eq_true] at h2
                have h3 := h2.2
                rw [Bool.or_eq_true, decide_eq_true_eq, decide_eq_true_eq] at h3
                rcases h3 with rfl | h4
                · rw [closeSock_single _ nf hfd]
                  intro hm
                  exact (mem_removeFd.mp hm).2 rfl
                · intro hm
                  exact h4 (processCmd_open_sub s _ o.dns
                    (closeSock_open_sub _ _ _ hm))
              exact inv_register_cmd _ nf hInv2 hfresh
        exact inv_setCb_keep _ fd _ hInv3 rfl rfl rfl
  · have hstep : onCommand s fd o = s := by
      simp [onCommand, getCallbackN, hfd]
    rw [hstep]
    exact hInv

/-! The invariant holds initially and is preserved by every dispatch. -/

theorem pairwise_routes_of_unbound :
    ∀ l : List Route, (∀ r ∈ l, r.source_fd = -1) → l.Pairwise routeNoFdClash := by
  intro l
  induction l with
  | nil => intro _; exact List.Pairwise.nil
  | cons x xs ih =>
      intro hall
      rw [List.pairwise_cons]
      refine ⟨?_, ih (fun r hr => hall r (List.mem_cons_of_mem x hr))⟩
      intro r _ h1
      rw [hall x (List.mem_cons_self x xs)] at h1
      exact absurd h1 (by norm_num)

theorem inv_init (r0 : List Route) (F L : Nat) (h : initOk r0 F L = true) :
    Inv (initSt r0 F L) := by
  have hall : ∀ r ∈ r0, r.source_fd = -1 := by
    unfold initOk at h
    simp only [Bool.and_eq_true, decide_eq_true_eq, List.all_eq_true] at h
    intro r hr
    exact h.2 r hr
  refine ⟨?_, ?_, ?_, ?_, ?_⟩
  · intro p hp
    simp [initSt] at hp
  · intro a ha
    by_cases haF : a = F
    · subst haF
      simp [initSt, fifoSlot] at ha
    · by_cases haL : a = L
      · subst haL
        simp [initSt, listenSlot, haF] at ha
      · simp [initSt, haF, haL, Callback.empty] at ha
  · show List.Pairwise pairNoClash ([] : List (Nat × Nat))
    exact List.Pairwise.nil
  · intro r hr hpos
    have hr2 : r ∈ r0 := hr
    rw [hall r hr2] at hpos
    exact absurd hpos (by norm_num)
  · show List.Pairwise routeNoFdClash r0
    exact pairwise_routes_of_unbound r0 hall

theorem inv_step (s : St) (e : Ev) (hInv : Inv s) (hv : validEv s e = true) :
    Inv (step s e) := by
  cases e with
  | evConnect fd o =>
      unfold validEv at hv
      rw [Bool.and_eq_true, Bool.and_eq_true] at hv
      exact inv_onConnect s fd o hInv (by
        have := hv.1.1
        rwa [decide_eq_true_eq] at this) hv.2
  | evRead fd o =>
      unfold validEv at hv
      rw [Bool.and_eq_true, Bool.and_eq_true] at hv
      exact inv_onRead s fd o hInv (by
        have := hv.1.1
        rwa [decide_eq_true_eq] at this)
  | evWrite fd o =>
      unfold validEv at hv
      rw [Bool.and_eq_true, Bool.and_eq_true] at hv
      exact inv_onWrite s fd o hInv (by
        have := hv.1.1
        rwa [decide_eq_true_eq] at this)
  | evCmd fd o =>
      unfold validEv at hv
      rw [Bool.and_eq_true, Bool.and_eq_true] at hv
      exact inv_onCommand s fd o hInv (by
        have := hv.1.1
        rwa [decide_eq_true_eq] at this) hv.2

theorem run_inv : ∀ (evs : List Ev) (s : St), Inv s → validTrace s evs = true →
    Inv (run s evs) := by
  intro evs
  induction evs with
  | nil => intro s h _; exact h
  | cons e es ih =>
      intro s h hv
      rw [validTrace, Bool.and_eq_true] at hv
      exact ih (step s e) (inv_step s e h hv.1) hv.2

theorem reachable_inv (s : St) (h : Reachable s) : Inv s := by
  obtain ⟨r0, F, L, evs, h1, h2, rfl⟩ := h
  exact run_inv evs _ (inv_init r0 F L h1) h2

theorem routes_filter_le_one {l : List Route} (hd : l.Pairwise routeNoFdClash) (a : Nat) :
    (l.filter (fun r => decide (r.source_fd = (a : Int)))).length ≤ 1 := by
  induction l with
  | nil => simp
  | cons x xs ih =>
      rw [List.pairwise_cons] at hd
      by_cases hx : x.source_fd = (a : Int)
      · rw [List.filter_cons_of_pos (by simp [hx])]
        have hempty : xs.filter (fun r => decide (r.source_fd = (a : Int))) = [] := by
          rw [List.filter_eq_nil]
          intro r hr
          simp only [decide_eq_true_eq]
          intro heq
          exact hd.1 r hr (by rw [hx]; positivity) (by rw [heq]; positivity)
            (hx.trans heq.symm)
        rw [hempty]
        exact le_refl 1
      · rw [List.filter_cons_of_neg (by simp [hx])]
        exact ih hd.2

/-- C2 (amended): in every reachable state, every established forwarding
pair (a, b) has both slots carrying the OnRead and OnWrite handlers with
mutual peer references, and AT MOST one route is bound to the accepted
descriptor `a` (the claim's "exactly one" fails: a second connection from
the same source IP rebinds the route and strands the older pair with no
route, see the counterexample). -/
theorem c2_established_pairs (s : St) (hs : Reachable s) (a b : Nat)
    (hab : (a, b) ∈ s.pairs) :
    (s.cb a).read_fn = some .hRead ∧ (s.cb a).write_fn = some .hWrite ∧
    (s.cb a).peer_fd = (b : Int) ∧
    (s.cb b).read_fn = some .hRead ∧ (s.cb b).write_fn = some .hWrite ∧
    (s.cb b).peer_fd = (a : Int) ∧
    (s.routes.filter (fun r => decide (r.source_fd = (a : Int)))).length ≤ 1 := by
  obtain ⟨hpw, hfp, hdj, hrw, hrd⟩ := reachable_inv s hs
  have hw := hpw (a, b) hab
  exact ⟨hw.2.2.2.2.2.1, hw.2.2.2.2.2.2.1, hw.2.2.2.2.2.2.2.1, hw.2.2.2.2.2.2.2.2.1,
    hw.2.2.2.2.2.2.2.2.2.1, hw.2.2.2.2.2.2.2.2.2.2, routes_filter_le_one hrd a⟩

theorem c2_established_pairs_witness :
    ((pairSt.cb 5).peer_fd = (6 : Int)) ∧ ((pairSt.cb 6).peer_fd = (5 : Int)) ∧
    (pairSt.routes.filter (fun r => decide (r.source_fd = (5 : Int)))).length ≤ 1 := by
  have hreach : Reachable pairSt :=
    ⟨[{ source_ip := [49] }], 3, 4,
      [.evConnect 4 ⟨.ok 5 .inet [49], true, .ok 6, true, .inProgress⟩],
      by decide, by decide, rfl⟩
  have h := c2_established_pairs pairSt hreach 5 6 (by decide)
  exact ⟨h.2.2.1, h.2.2.2.2.2.1, h.2.2.2.2.2.2⟩

/-- The state after two successive accepted connections from the same
source IP: the route table binds only the newer pair's source descriptor. -/
def c2Bad : St :=
  run (initSt [{ source_ip := [49] }] 3 4)
    [.evConnect 4 ⟨.ok 5 .inet [49], true, .ok 6, true, .inProgress⟩,
     .evConnect 4 ⟨.ok 7 .inet [49], true, .ok 8, true, .inProgress⟩]

/-- C2 (counterexample): the claim's "exactly one route has
`source_fd = a`" is false.  After a second connection from the same source
IP, the pair (5, 6) is still established (both slots registered, mutual
peers) but `rt->source_fd` was overwritten with the newer descriptor 7, so
NO route has `source_fd = 5`. -/
theorem c2_counterexample :
    Reachable c2Bad ∧ (5, 6) ∈ c2Bad.pairs ∧
    (c2Bad.cb 5).peer_fd = (6 : Int) ∧ (c2Bad.cb 6).peer_fd = (5 : Int) ∧
    (c2Bad.routes.filter (fun r => decide (r.source_fd = (5 : Int)))).length = 0 := by
  refine ⟨⟨[{ source_ip := [49] }], 3, 4,
    [.evConnect 4 ⟨.ok 5 .inet [49], true, .ok 6, true, .inProgress⟩,
     .evConnect 4 ⟨.ok 7 .inet [49], true, .ok 8, true, .inProgress⟩],
    by decide, by decide, rfl⟩, by decide, by decide, by decide, by decide⟩

end TcpProxy
